import Mathlib

/-!
# LRU cache (`lru/lru.go`)

A shallow embedding of the generic LRU cache of package `lru`, and the properties of it
that are proved here.

## The embedding

* A Go pointer `*node[K, V]` is an `Option Nat`: `none` is `nil`, `some a` is the
  address `a` of a cell of the node store.
* The node store (the part of the Go heap holding `node` values) is a list of nodes,
  carried inside the cache state; allocating a node appends a cell, and cells are never
  reclaimed (an unreachable node is garbage that nothing can observe).
* The Go map `map[K]*node[K, V]` is an association list with at most one entry per key.
  Keys are compared with a decidable equality, that is, Go's `==` on `K` is taken to be
  an equivalence that never panics.
* Dereferencing `nil` panics in Go; every operation that dereferences returns an
  `Option`, and `none` is that panic.
* `int` fields are `Int`: `size` only ever moves between `0` and `capacity`, so no
  machine arithmetic can wrap.

## The development

* `Seg`, `Linked`, `Indexed` and `Inv` state the representation invariant: the store
  holds a doubly linked chain between the two sentinels, and the index and `size` agree
  with it.
* `removeNode_linked`, `addToFront_linked` and `moveToFront_linked` give the effect of
  the list primitives on a well-formed chain.
* `Get_present`, `Put_present`, `Put_absent_room`, `Put_absent_full` and
  `Remove_present` give the effect of each API call on a state satisfying `Inv`, in terms
  of the observable recency sequence `entries`.
* `step_refines` and `run_refines` compare the code with the reference model `specStep`.
* The last section states the properties of the public API.
-/

namespace lru

/-- The two package-level error values. -/
inductive Error where
  | ErrNotFound
  | ErrInvalidCapacity
deriving DecidableEq, Repr

/-- A pointer to a node: `none` is `nil`. -/
abbrev Ptr := Option Nat

/-- The struct `node[K, V]`: a doubly linked list node. -/
structure node (K V : Type) where
  key : K
  value : V
  prev : Ptr
  next : Ptr
deriving DecidableEq, Repr

/-- The struct `Cache[K, V]`, together with the store its pointers refer to. -/
structure Cache (K V : Type) where
  capacity : Int
  size : Int
  cache : List (K × Ptr)
  head : Ptr
  tail : Ptr
  heap : List (node K V)
deriving DecidableEq, Repr

section Defs

variable {K V : Type}

/-- Read through a pointer: `*p`; `none` on `nil` (or on a dangling address). -/
def load (h : List (node K V)) (p : Ptr) : Option (node K V) :=
  match p with
  | none => none
  | some a => h[a]?

/-- Update the node a pointer refers to: `*p = f (*p)`; `none` on `nil`. -/
def store (h : List (node K V)) (p : Ptr) (f : node K V → node K V) :
    Option (List (node K V)) :=
  match p with
  | none => none
  | some a =>
    match h[a]? with
    | none => none
    | some nd => some (h.set a (f nd))

/-- Map read `m[key]`: the stored pointer, or `nil` when the key is absent. -/
def mapGet [DecidableEq K] (m : List (K × Ptr)) (key : K) : Ptr :=
  match m with
  | [] => none
  | (k, p) :: rest => if k = key then p else mapGet rest key

/-- Map removal `delete(m, key)`. -/
def mapDelete [DecidableEq K] (m : List (K × Ptr)) (key : K) : List (K × Ptr) :=
  m.filter (fun e => decide (e.1 ≠ key))

/-- Map write `m[key] = p`. -/
def mapSet [DecidableEq K] (m : List (K × Ptr)) (key : K) (p : Ptr) : List (K × Ptr) :=
  (key, p) :: mapDelete m key

/-- New creates a new LRU cache with the given capacity. The two sentinels are the
first two cells of a fresh store; their keys and values are the zero values. The result
is the pair `(*Cache, error)` the function returns. -/
def New (K V : Type) [Inhabited K] [Inhabited V] (capacity : Int) :
    Option (Option (Cache K V) × Option Error) :=
  if capacity ≤ 0 then
    some (none, some Error.ErrInvalidCapacity)
  else do
    let cache : Cache K V :=
      { capacity := capacity
        size := 0
        cache := []
        head := some 0
        tail := some 1
        heap := [⟨default, default, none, none⟩, ⟨default, default, none, none⟩] }
    -- cache.head.next = cache.tail
    let h1 ← store cache.heap cache.head (fun x => { x with next := cache.tail })
    -- cache.tail.prev = cache.head
    let h2 ← store h1 cache.tail (fun x => { x with prev := cache.head })
    some (some { cache with heap := h2 }, none)

/-- The method removeNode removes a node from the doubly linked list. -/
def removeNode (c : Cache K V) (n : Ptr) : Option (Cache K V) := do
  -- n.prev.next = n.next
  let n0 ← load c.heap n
  let h1 ← store c.heap n0.prev (fun x => { x with next := n0.next })
  -- n.next.prev = n.prev
  let n1 ← load h1 n
  let h2 ← store h1 n1.next (fun x => { x with prev := n1.prev })
  some { c with heap := h2 }

/-- The method addToFront adds a node to the front of the list. -/
def addToFront (c : Cache K V) (n : Ptr) : Option (Cache K V) := do
  -- n.next = c.head.next
  let hd0 ← load c.heap c.head
  let h1 ← store c.heap n (fun x => { x with next := hd0.next })
  -- n.prev = c.head
  let h2 ← store h1 n (fun x => { x with prev := c.head })
  -- c.head.next.prev = n
  let hd2 ← load h2 c.head
  let h3 ← store h2 hd2.next (fun x => { x with prev := n })
  -- c.head.next = n
  let h4 ← store h3 c.head (fun x => { x with next := n })
  some { c with heap := h4 }

/-- The method moveToFront moves a node to the front of the list. -/
def moveToFront (c : Cache K V) (n : Ptr) : Option (Cache K V) := do
  let c1 ← removeNode c n
  addToFront c1 n

/-- The method removeTail removes and returns the tail node (LRU item). -/
def removeTail (c : Cache K V) : Option (Cache K V × Ptr) := do
  let tl ← load c.heap c.tail
  let lru := tl.prev
  let c1 ← removeNode c lru
  some (c1, lru)

/-- Get retrieves a value from the cache and marks it as recently used. The result is
the cache afterwards, the returned value and the returned error (`none` is `nil`). -/
def Get [DecidableEq K] [Inhabited V] (c : Cache K V) (key : K) :
    Option (Cache K V × V × Option Error) :=
  let zero : V := default
  let res := mapGet c.cache key
  if res = none then
    some (c, zero, some Error.ErrNotFound)
  else do
    let c1 ← moveToFront c res
    let r ← load c1.heap res
    some (c1, r.value, none)

/-- Put adds or updates a key-value pair in the cache. The result is the cache
afterwards and the returned error (`none` is `nil`). -/
def Put [DecidableEq K] (c : Cache K V) (key : K) (value : V) :
    Option (Cache K V × Option Error) :=
  let current := mapGet c.cache key
  if current ≠ none then do
    -- current.value = value
    let h1 ← store c.heap current (fun x => { x with value := value })
    let c1 ← moveToFront { c with heap := h1 } current
    some (c1, none)
  else do
    let c1 ←
      if c.size ≥ c.capacity then do
        let (c0, tail) ← removeTail c
        let t ← load c0.heap tail
        some { c0 with cache := mapDelete c0.cache t.key }
      else
        some { c with size := c.size + 1 }
    -- node := &node[K, V]{key: key, value: value}
    let n : Ptr := some c1.heap.length
    let c2 : Cache K V :=
      { c1 with heap := c1.heap ++ [⟨key, value, none, none⟩] }
    -- c.cache[node.key] = node
    let nd ← load c2.heap n
    let c3 : Cache K V := { c2 with cache := mapSet c2.cache nd.key n }
    let c4 ← addToFront c3 n
    some (c4, none)

/-- Remove removes a key from the cache. -/
def Remove [DecidableEq K] (c : Cache K V) (key : K) : Option (Cache K V × Bool) :=
  let n := mapGet c.cache key
  if n = none then
    some (c, false)
  else do
    -- delete(c.cache, node.key)
    let nd ← load c.heap n
    let c1 : Cache K V := { c with cache := mapDelete c.cache nd.key }
    let c2 ← removeNode c1 n
    some ({ c2 with size := c2.size - 1 }, true)

/-- Len returns the current number of items in the cache. -/
def Len (c : Cache K V) : Int := c.size

/-- Cap returns the capacity of the cache. -/
def Cap (c : Cache K V) : Int := c.capacity

end Defs

/-! ## Observing a cache state -/

section Observers

variable {K V : Type}

/-- The field `a.next` of the node at address `a` (`nil` when there is none). -/
def nextOf (h : List (node K V)) (a : Nat) : Ptr :=
  match h[a]? with
  | none => none
  | some nd => nd.next

/-- The field `a.prev` of the node at address `a` (`nil` when there is none). -/
def prevOf (h : List (node K V)) (a : Nat) : Ptr :=
  match h[a]? with
  | none => none
  | some nd => nd.prev

/-- The field `a.key` of the node at address `a`. -/
def keyOf (h : List (node K V)) (a : Nat) : Option K :=
  match h[a]? with
  | none => none
  | some nd => some nd.key

/-- The field `a.value` of the node at address `a`. -/
def valOf (h : List (node K V)) (a : Nat) : Option V :=
  match h[a]? with
  | none => none
  | some nd => some nd.value

/-- Follow `next` links from `p` until the pointer `stop` (or `nil`) is met, collecting
the addresses visited; `fuel` bounds the number of steps. -/
def walk (h : List (node K V)) (stop : Ptr) : Nat → Ptr → List Nat
  | 0, _ => []
  | fuel + 1, p =>
    if p = stop then []
    else
      match p with
      | none => []
      | some a => a :: walk h stop fuel (nextOf h a)

/-- The recency sequence: the addresses met walking `next` links from `c.head.next`
up to the back sentinel `c.tail`, most recently used first. -/
def order (c : Cache K V) : List Nat :=
  match load c.heap c.head with
  | none => []
  | some hd => walk c.heap c.tail c.heap.length hd.next

/-- The key and value of the node at address `a`. -/
def dataOf (h : List (node K V)) (a : Nat) : Option (K × V) :=
  match h[a]? with
  | none => none
  | some nd => some (nd.key, nd.value)

/-- The key/value pairs of the recency sequence, most recently used first. -/
def entries (c : Cache K V) : List (K × V) :=
  (order c).filterMap (dataOf c.heap)

/-- The keys of the recency sequence, most recently used first. -/
def keys (c : Cache K V) : List K := (entries c).map Prod.fst

/-- The keys of the index (the Go map). -/
def indexKeys (c : Cache K V) : List K := c.cache.map Prod.fst

/-- One call of the public API. -/
inductive Op (K V : Type) where
  | get (key : K)
  | put (key : K) (value : V)
  | remove (key : K)
deriving DecidableEq, Repr

/-- The cache after one API call (`none` if the call panics). -/
def step [DecidableEq K] [Inhabited V] (c : Cache K V) : Op K V → Option (Cache K V)
  | .get key => (Get c key).map (fun r => r.1)
  | .put key value => (Put c key value).map (fun r => r.1)
  | .remove key => (Remove c key).map (fun r => r.1)

/-- The cache after a sequence of API calls, applied left to right. -/
def run [DecidableEq K] [Inhabited V] (c : Cache K V) : List (Op K V) → Option (Cache K V)
  | [] => some c
  | op :: ops => (step c op).bind (fun c1 => run c1 ops)

/-- A cache is reachable when some successful `New` followed by some sequence of
`Get`/`Put`/`Remove` calls produces it. -/
def Reachable [DecidableEq K] [Inhabited K] [Inhabited V] (c : Cache K V) : Prop :=
  ∃ (n : Int) (c0 : Cache K V) (ops : List (Op K V)),
    New K V n = some (some c0, none) ∧ run c0 ops = some c

/-- A doubly linked segment: starting at `x`, the `next` links run through the
addresses `l` and end at `y`, and the `prev` links run back the same way. -/
def Seg (h : List (node K V)) : Nat → List Nat → Nat → Prop
  | x, [], y => nextOf h x = some y ∧ prevOf h y = some x
  | x, a :: l, y => nextOf h x = some a ∧ prevOf h a = some x ∧ Seg h a l y

/-- The store holds a well-formed recency list: from the front sentinel (address `0`)
the `next` links run through the pairwise distinct addresses `as` to the back sentinel
(address `1`), the `prev` links run back, and the sentinels' outer links are `nil`. -/
structure Linked (h : List (node K V)) (as : List Nat) : Prop where
  nodup : (0 :: (as ++ [1])).Nodup
  seg : Seg h 0 as 1
  head_prev : prevOf h 0 = none
  tail_next : nextOf h 1 = none

/-- Two stores have the same cells with the same keys and values (links may differ). -/
structure SameData (h h' : List (node K V)) : Prop where
  len : h'.length = h.length
  key : ∀ a, keyOf h' a = keyOf h a
  val : ∀ a, valOf h' a = valOf h a

/-- The index `m` agrees with the live nodes `as` of the store: its keys are pairwise
distinct, its pointers are exactly the live addresses, and each entry sits under the
key of the node it points to. -/
structure Indexed (m : List (K × Ptr)) (h : List (node K V)) (as : List Nat) : Prop where
  keys : (m.map Prod.fst).Nodup
  ptrs : (m.map Prod.snd).Perm (as.map some)
  key : ∀ k a, (k, some a) ∈ m → keyOf h a = some k

/-- The representation invariant: the cache is a well-formed list whose live nodes,
from most to least recently used, sit at the addresses `as`; the index holds exactly
one entry per live node, under that node's key; `size` counts the live nodes and stays
within the positive `capacity`. -/
structure Inv (c : Cache K V) (as : List Nat) : Prop where
  head_eq : c.head = some 0
  tail_eq : c.tail = some 1
  linked : Linked c.heap as
  indexed : Indexed c.cache c.heap as
  size_eq : c.size = as.length
  size_le : c.size ≤ c.capacity
  cap_pos : 0 < c.capacity

end Observers

/-! ## Reference model

The recency sequence as the specification describes it: a list of key/value pairs, most
recently used first, on which `get` relocates an entry to the head, `put` overwrites and
relocates, or inserts at the head after evicting the last entry when the list is at
capacity, and `remove` deletes an entry. The operations of the cache are compared with
these functions. -/

section Model

variable {K V : Type}

/-- Reference lookup: the value of the entry holding `key`, if any. -/
def specFind [DecidableEq K] (l : List (K × V)) (key : K) : Option V :=
  (l.find? (fun e => decide (e.1 = key))).map Prod.snd

/-- Reference `get`: a present entry is relocated to the head. -/
def specGet [DecidableEq K] (l : List (K × V)) (key : K) : List (K × V) :=
  match specFind l key with
  | some v => (key, v) :: l.filter (fun e => decide (e.1 ≠ key))
  | none => l

/-- Reference `put` for a cache of capacity `cap`. -/
def specPut [DecidableEq K] (cap : Int) (l : List (K × V)) (key : K) (value : V) :
    List (K × V) :=
  if key ∈ l.map Prod.fst then (key, value) :: l.filter (fun e => decide (e.1 ≠ key))
  else if cap ≤ l.length then (key, value) :: l.dropLast
  else (key, value) :: l

/-- Reference `remove`. -/
def specRemove [DecidableEq K] (l : List (K × V)) (key : K) : List (K × V) :=
  l.filter (fun e => decide (e.1 ≠ key))

/-- Reference effect of one API call. -/
def specStep [DecidableEq K] (cap : Int) (l : List (K × V)) : Op K V → List (K × V)
  | .get key => specGet l key
  | .put key value => specPut cap l key value
  | .remove key => specRemove l key

/-- Reference effect of a sequence of API calls, applied left to right. -/
def specRun [DecidableEq K] (cap : Int) (l : List (K × V)) : List (Op K V) → List (K × V)
  | [] => l
  | op :: ops => specRun cap (specStep cap l op) ops

end Model

/-! ## Call history

The position in the call history of the last successful `Get` or `Put` of each key. -/

section History

variable {K V : Type}

/-- Whether the call `op`, made in state `c`, is a successful `Get` or `Put` of `key`:
a `Get key` or a `Put key` that returns a nil error. -/
def touches [DecidableEq K] [Inhabited V] (c : Cache K V) (op : Op K V) (key : K) : Bool :=
  match op with
  | .get k =>
    decide (k = key) &&
      (match Get c k with
       | some (_, _, none) => true
       | _ => false)
  | .put k v =>
    decide (k = key) &&
      (match Put c k v with
       | some (_, none) => true
       | _ => false)
  | .remove _ => false

/-- Replay the calls `ops` from state `c`, numbering them `t + 1`, `t + 2`, ..., and
record for each key the number of the last call that was a successful `Get` or `Put` of
it, starting from the record `f`. -/
def lastUseFrom [DecidableEq K] [Inhabited V] (c : Cache K V) :
    List (Op K V) → Nat → (K → Nat) → (K → Nat)
  | [], _, f => f
  | op :: ops, t, f =>
    match step c op with
    | none => f
    | some c1 =>
      lastUseFrom c1 ops (t + 1) (fun key => if touches c op key then t + 1 else f key)

/-- The number (counting from `1`) of the last call of the history `ops`, run from the
fresh cache `c0`, that was a successful `Get` or `Put` of `key`; `0` if there is none. -/
def lastUse [DecidableEq K] [Inhabited V] (c0 : Cache K V) (ops : List (Op K V))
    (key : K) : Nat :=
  lastUseFrom c0 ops 0 (fun _ => 0) key

end History

/-! ## Sample states -/

/-- The state after `New 2`, `Put 1 10`, `Put 2 20`, `Get 1`, `Put 3 30` on `Nat` keys
and values: a full cache holding keys `3` and `1`; the node of the evicted key `2` is
garbage at address `3`. -/
def sampleCache : Cache Nat Nat :=
  { capacity := 2, size := 2, cache := [(3, some 4), (1, some 2)],
    head := some 0, tail := some 1,
    heap := [⟨0, 0, none, some 4⟩, ⟨0, 0, some 2, none⟩, ⟨1, 10, some 4, some 1⟩,
             ⟨2, 20, some 2, some 1⟩, ⟨3, 30, some 0, some 2⟩] }

/-- The state returned by `New 2` on `Nat` keys and values: the two sentinels, linked to
each other, and an empty index. -/
def sampleFresh : Cache Nat Nat :=
  { capacity := 2, size := 0, cache := [], head := some 0, tail := some 1,
    heap := [⟨0, 0, none, some 1⟩, ⟨0, 0, some 0, none⟩] }

/-- The history that leads from `New 2` to `sampleCache`: it fills the cache, reads the
older key `1`, and then puts a third key, which evicts key `2`. -/
def sampleHistory : List (Op Nat Nat) := [.put 1 10, .put 2 20, .get 1, .put 3 30]

/-- The state after `New 2`, `Put 1 10`: a cache of capacity two with room for one more
entry. -/
def sampleRoom : Cache Nat Nat :=
  { capacity := 2, size := 1, cache := [(1, some 2)], head := some 0, tail := some 1,
    heap := [⟨0, 0, none, some 2⟩, ⟨0, 0, some 2, none⟩, ⟨1, 10, some 0, some 1⟩] }

/-- The state after `New 1`, `Put 7 1`: a full cache of capacity one. -/
def sampleOne : Cache Nat Nat :=
  { capacity := 1, size := 1, cache := [(7, some 2)], head := some 0, tail := some 1,
    heap := [⟨0, 0, none, some 2⟩, ⟨0, 0, some 2, none⟩, ⟨7, 1, some 0, some 1⟩] }

/-! ## Properties of the store, the list and the index -/

section Lemmas

variable {K V : Type}

theorem getElem?_set_valid {α : Type} {h : List α} {a : Nat} {nd : α} (x : α) (b : Nat)
    (ha : h[a]? = some nd) : (h.set a x)[b]? = if b = a then some x else h[b]? := by
  have hlt : a < h.length := by
    rcases List.getElem?_eq_some.1 ha with ⟨hl, _⟩
    exact hl
  by_cases hb : b = a
  · subst hb
    simp [hlt]
  · have : a ≠ b := fun e => hb e.symm
    simp [hb, List.getElem?_set_ne this]

theorem nextOf_eq_some {h : List (node K V)} {a b : Nat} (e : nextOf h a = some b) :
    ∃ nd, h[a]? = some nd ∧ nd.next = some b := by
  unfold nextOf at e
  cases hx : h[a]? with
  | none => simp [hx] at e
  | some nd => exact ⟨nd, rfl, by simpa [hx] using e⟩

theorem prevOf_eq_some {h : List (node K V)} {a b : Nat} (e : prevOf h a = some b) :
    ∃ nd, h[a]? = some nd ∧ nd.prev = some b := by
  unfold prevOf at e
  cases hx : h[a]? with
  | none => simp [hx] at e
  | some nd => exact ⟨nd, rfl, by simpa [hx] using e⟩

theorem removeNode_heap (c : Cache K V) {n p q : Nat} {pd qd : node K V}
    (hp : prevOf c.heap n = some p) (hq : nextOf c.heap n = some q)
    (hpv : c.heap[p]? = some pd) (hqv : c.heap[q]? = some qd) (hpn : p ≠ n) :
    ∃ h', removeNode c (some n) = some { c with heap := h' } ∧
      h'.length = c.heap.length ∧
      (∀ a, keyOf h' a = keyOf c.heap a) ∧ (∀ a, valOf h' a = valOf c.heap a) ∧
      (∀ a, a ≠ p → nextOf h' a = nextOf c.heap a) ∧ nextOf h' p = some q ∧
      (∀ a, a ≠ q → prevOf h' a = prevOf c.heap a) ∧ prevOf h' q = some p := by
  obtain ⟨nd, hnd, hndp⟩ := prevOf_eq_some hp
  obtain ⟨nd', hnd', hndq⟩ := nextOf_eq_some hq
  have : nd' = nd := by rw [hnd] at hnd'; exact (Option.some.inj hnd').symm
  subst this
  have h1n : (c.heap.set p { pd with next := some q })[n]? = some nd' := by
    rw [getElem?_set_valid _ _ hpv]; simp [hnd, Ne.symm hpn]
  have h1q : ∃ qd1, (c.heap.set p { pd with next := some q })[q]? = some qd1 ∧
      qd1.key = qd.key ∧ qd1.value = qd.value ∧ (q ≠ p → qd1.next = qd.next) ∧
      (q = p → qd1.next = some q) := by
    rw [getElem?_set_valid _ _ hpv]
    by_cases e : q = p
    · subst e
      rw [hqv] at hpv
      cases hpv
      exact ⟨{ pd with next := some q }, by simp, rfl, rfl, fun h => absurd rfl h, fun _ => rfl⟩
    · exact ⟨qd, by simp [e, hqv], rfl, rfl, fun _ => rfl, fun h => absurd h e⟩
  obtain ⟨qd1, hqd1, hk1, hv1, hnx1, hnx2⟩ := h1q
  refine ⟨(c.heap.set p { pd with next := some q }).set q { qd1 with prev := some p }, ?_,
    by simp, ?_, ?_, ?_, ?_, ?_, ?_⟩
  · simp [removeNode, load, store, hnd, hndp, hndq, hpv, h1n, hqd1]
  · intro a
    simp only [keyOf, getElem?_set_valid _ _ hqd1, getElem?_set_valid _ _ hpv]
    by_cases e1 : a = q <;> by_cases e2 : a = p <;> simp_all
  · intro a
    simp only [valOf, getElem?_set_valid _ _ hqd1, getElem?_set_valid _ _ hpv]
    by_cases e1 : a = q <;> by_cases e2 : a = p <;> simp_all
  · intro a hap
    simp only [nextOf, getElem?_set_valid _ _ hqd1, getElem?_set_valid _ _ hpv]
    by_cases e1 : a = q
    · subst e1
      simp [hnx1 hap, hqv]
    · simp [e1, hap]
  · simp only [nextOf, getElem?_set_valid _ _ hqd1, getElem?_set_valid _ _ hpv]
    by_cases e1 : p = q
    · subst e1
      simp [hnx2 rfl]
    · simp [e1]
  · intro a haq
    simp only [prevOf, getElem?_set_valid _ _ hqd1, getElem?_set_valid _ _ hpv]
    by_cases e2 : a = p <;> simp_all
  · simp only [prevOf, getElem?_set_valid _ _ hqd1, getElem?_set_valid _ _ hpv]
    simp

theorem addToFront_heap (c : Cache K V) {hd n f : Nat} {nd fd : node K V}
    (hh : c.head = some hd) (hf : nextOf c.heap hd = some f)
    (hnv : c.heap[n]? = some nd) (hfv : c.heap[f]? = some fd)
    (hn0 : n ≠ hd) (hnf : n ≠ f) (hf0 : f ≠ hd) :
    ∃ h', addToFront c (some n) = some { c with heap := h' } ∧
      h'.length = c.heap.length ∧
      (∀ a, keyOf h' a = keyOf c.heap a) ∧ (∀ a, valOf h' a = valOf c.heap a) ∧
      nextOf h' hd = some n ∧ nextOf h' n = some f ∧
      (∀ a, a ≠ hd → a ≠ n → nextOf h' a = nextOf c.heap a) ∧
      prevOf h' n = some hd ∧ prevOf h' f = some n ∧
      (∀ a, a ≠ n → a ≠ f → prevOf h' a = prevOf c.heap a) ∧
      prevOf h' hd = prevOf c.heap hd := by
  obtain ⟨hdd, hhd, hhdn⟩ := nextOf_eq_some hf
  have e1 : (c.heap.set n { nd with next := some f })[n]? = some { nd with next := some f } := by
    rw [getElem?_set_valid _ _ hnv]; simp
  have e2 : ((c.heap.set n { nd with next := some f }).set n
      { nd with next := some f, prev := some hd })[hd]? = some hdd := by
    rw [getElem?_set_valid _ _ e1, getElem?_set_valid _ _ hnv]; simp [Ne.symm hn0, hhd]
  have e3 : ((c.heap.set n { nd with next := some f }).set n
      { nd with next := some f, prev := some hd })[f]? = some fd := by
    rw [getElem?_set_valid _ _ e1, getElem?_set_valid _ _ hnv]; simp [Ne.symm hnf, hfv]
  have e4 : (((c.heap.set n { nd with next := some f }).set n
      { nd with next := some f, prev := some hd }).set f { fd with prev := some n })[hd]?
        = some hdd := by
    rw [getElem?_set_valid _ _ e3, e2]; simp [Ne.symm hf0]
  refine ⟨((((c.heap.set n { nd with next := some f }).set n
      { nd with next := some f, prev := some hd }).set f { fd with prev := some n }).set hd
        { hdd with next := some n }), ?_, by simp, ?_, ?_, ?_, ?_, ?_, ?_, ?_, ?_, ?_⟩
  · simp only [addToFront, load, store, hh, hhd, hnv, e1, e2, e3, e4, hhdn,
      Option.bind_eq_bind, Option.some_bind]
  · intro a
    simp only [keyOf, getElem?_set_valid _ _ e4, getElem?_set_valid _ _ e3,
      getElem?_set_valid _ _ e1, getElem?_set_valid _ _ hnv]
    by_cases a1 : a = hd <;> by_cases a2 : a = f <;> by_cases a3 : a = n <;> simp_all
  · intro a
    simp only [valOf, getElem?_set_valid _ _ e4, getElem?_set_valid _ _ e3,
      getElem?_set_valid _ _ e1, getElem?_set_valid _ _ hnv]
    by_cases a1 : a = hd <;> by_cases a2 : a = f <;> by_cases a3 : a = n <;> simp_all
  · simp only [nextOf, getElem?_set_valid _ _ e4]
    simp
  · simp only [nextOf, getElem?_set_valid _ _ e4, getElem?_set_valid _ _ e3,
      getElem?_set_valid _ _ e1, getElem?_set_valid _ _ hnv]
    simp [hn0, hnf]
  · intro a a1 a3
    simp only [nextOf, getElem?_set_valid _ _ e4, getElem?_set_valid _ _ e3,
      getElem?_set_valid _ _ e1, getElem?_set_valid _ _ hnv]
    by_cases a2 : a = f <;> simp_all
  · simp only [prevOf, getElem?_set_valid _ _ e4, getElem?_set_valid _ _ e3,
      getElem?_set_valid _ _ e1, getElem?_set_valid _ _ hnv]
    simp [hn0, hnf]
  · simp only [prevOf, getElem?_set_valid _ _ e4, getElem?_set_valid _ _ e3,
      getElem?_set_valid _ _ e1, getElem?_set_valid _ _ hnv]
    simp [hf0]
  · intro a a3 a2
    simp only [prevOf, getElem?_set_valid _ _ e4, getElem?_set_valid _ _ e3,
      getElem?_set_valid _ _ e1, getElem?_set_valid _ _ hnv]
    by_cases a1 : a = hd <;> simp_all
  · simp only [prevOf, getElem?_set_valid _ _ e4, getElem?_set_valid _ _ e3,
      getElem?_set_valid _ _ e1, getElem?_set_valid _ _ hnv]
    simp [hhd]

theorem Seg.frame {h h' : List (node K V)} : ∀ {l : List Nat} {x y : Nat}, Seg h x l y →
    (∀ z ∈ x :: l, nextOf h' z = nextOf h z) →
    (∀ z ∈ l ++ [y], prevOf h' z = prevOf h z) → Seg h' x l y
  | [], x, y, hs, hn, hp => by
    obtain ⟨h1, h2⟩ := hs
    exact ⟨by rw [hn x (by simp), h1], by rw [hp y (by simp), h2]⟩
  | a :: l, x, y, hs, hn, hp => by
    obtain ⟨h1, h2, h3⟩ := hs
    refine ⟨by rw [hn x (by simp), h1], by rw [hp a (by simp), h2], ?_⟩
    exact Seg.frame h3 (fun z hz => hn z (List.mem_cons_of_mem _ hz))
      (fun z hz => hp z (by simp at hz ⊢; tauto))

theorem Seg.prev_mem {h : List (node K V)} : ∀ {s : List Nat} {x n : Nat} {l2 : List Nat}
    {y : Nat}, Seg h x (s ++ n :: l2) y → ∃ p ∈ x :: s, prevOf h n = some p
  | [], x, n, l2, y, hs => ⟨x, by simp, hs.2.1⟩
  | a :: l1, x, n, l2, y, hs => by
    obtain ⟨p, hp, e⟩ := Seg.prev_mem (s := l1) hs.2.2
    exact ⟨p, List.mem_cons_of_mem _ hp, e⟩

theorem Seg.next_mem {h : List (node K V)} : ∀ {s : List Nat} {x n : Nat} {l2 : List Nat}
    {y : Nat}, Seg h x (s ++ n :: l2) y → ∃ q ∈ l2 ++ [y], nextOf h n = some q
  | [], x, n, [], y, hs => ⟨y, by simp, hs.2.2.1⟩
  | [], x, n, b :: l2, y, hs => ⟨b, by simp, hs.2.2.1⟩
  | a :: l1, x, n, l2, y, hs => Seg.next_mem (s := l1) hs.2.2

theorem Seg.valid {h : List (node K V)} : ∀ {l : List Nat} {x y : Nat}, Seg h x l y →
    ∀ a ∈ x :: (l ++ [y]), a < h.length
  | [], x, y, hs, a, ha => by
    obtain ⟨_, e1, _⟩ := nextOf_eq_some hs.1
    obtain ⟨_, e2, _⟩ := prevOf_eq_some hs.2
    have := (List.getElem?_eq_some.1 e1).1
    have := (List.getElem?_eq_some.1 e2).1
    simp at ha
    rcases ha with rfl | rfl <;> assumption
  | b :: l, x, y, hs, a, ha => by
    obtain ⟨_, e1, _⟩ := nextOf_eq_some hs.1
    have := (List.getElem?_eq_some.1 e1).1
    have ih := Seg.valid hs.2.2
    simp only [List.cons_append, List.mem_cons] at ha ih
    rcases ha with rfl | ha
    · assumption
    · exact ih a ha

theorem Seg.detach {h h' : List (node K V)} {n p q : Nat}
    (hp : prevOf h n = some p) (hq : nextOf h n = some q)
    (N1 : ∀ z, z ≠ p → nextOf h' z = nextOf h z) (N2 : nextOf h' p = some q)
    (P1 : ∀ z, z ≠ q → prevOf h' z = prevOf h z) (P2 : prevOf h' q = some p) :
    ∀ {l1 : List Nat} {x : Nat} {l2 : List Nat} {y : Nat}, Seg h x (l1 ++ n :: l2) y →
      (x :: (l1 ++ n :: l2 ++ [y])).Nodup → Seg h' x (l1 ++ l2) y
  | [], x, [], y, hs, hnd => by
    obtain ⟨h1, h2, h3, h4⟩ := hs
    have : p = x := by rw [hp] at h2; exact Option.some.inj h2
    have : q = y := by rw [hq] at h3; exact Option.some.inj h3
    subst_vars
    exact ⟨N2, P2⟩
  | [], x, b :: l2, y, hs, hnd => by
    obtain ⟨h1, h2, h3, h4, h5⟩ := hs
    have : p = x := by rw [hp] at h2; exact Option.some.inj h2
    have : q = b := by rw [hq] at h3; exact Option.some.inj h3
    subst_vars
    refine ⟨N2, P2, Seg.frame h5 ?_ ?_⟩
    · intro z hz
      apply N1
      rintro rfl
      simp at hnd hz
      tauto
    · intro z hz
      apply P1
      rintro rfl
      simp at hnd hz
      tauto
  | a :: l1, x, l2, y, hs, hnd => by
    obtain ⟨h1, h2, h3⟩ := hs
    obtain ⟨p', hp', e1⟩ := Seg.prev_mem h3
    obtain ⟨q', hq', e2⟩ := Seg.next_mem h3
    have : p' = p := by rw [hp] at e1; exact (Option.some.inj e1).symm
    have : q' = q := by rw [hq] at e2; exact (Option.some.inj e2).symm
    subst_vars
    refine ⟨?_, ?_, Seg.detach hp hq N1 N2 P1 P2 h3 (List.nodup_cons.1 hnd).2⟩
    · rw [N1, h1]
      rintro rfl
      simp at hnd hp'
      tauto
    · rw [P1, h2]
      rintro rfl
      simp at hnd hq'
      tauto

theorem Seg.attach {h h' : List (node K V)} {x n f : Nat} {l : List Nat} {y : Nat}
    (hs : Seg h x l y) (hnd : (x :: (l ++ [y])).Nodup) (hn : n ∉ x :: (l ++ [y]))
    (hf : nextOf h x = some f)
    (N1 : nextOf h' x = some n) (N2 : nextOf h' n = some f)
    (N3 : ∀ a, a ≠ x → a ≠ n → nextOf h' a = nextOf h a)
    (P1 : prevOf h' n = some x) (P2 : prevOf h' f = some n)
    (P3 : ∀ a, a ≠ n → a ≠ f → prevOf h' a = prevOf h a) :
    Seg h' x (n :: l) y := by
  cases l with
  | nil =>
    obtain ⟨h1, h2⟩ := hs
    have : f = y := by rw [hf] at h1; exact Option.some.inj h1
    subst this
    exact ⟨N1, P1, N2, P2⟩
  | cons b l =>
    obtain ⟨h1, h2, h3⟩ := hs
    have : f = b := by rw [hf] at h1; exact Option.some.inj h1
    subst this
    refine ⟨N1, P1, N2, P2, Seg.frame h3 ?_ ?_⟩
    · intro z hz
      apply N3
      · rintro rfl
        simp at hnd hz
        tauto
      · rintro rfl
        simp at hn hz
        tauto
    · intro z hz
      apply P3
      · rintro rfl
        simp at hn hz
        tauto
      · rintro rfl
        simp at hnd hz
        tauto

theorem Seg.walk {h : List (node K V)} : ∀ {l : List Nat} {x y : Nat} (fuel : Nat),
    Seg h x l y → y ∉ l → l.length < fuel → walk h (some y) fuel (nextOf h x) = l
  | [], x, y, fuel + 1, hs, _, _ => by
    simp [lru.walk, hs.1]
  | a :: l, x, y, fuel + 1, hs, hy, hf => by
    have hay : a ≠ y := by
      rintro rfl
      simp at hy
    have ih := Seg.walk fuel hs.2.2 (fun m => hy (List.mem_cons_of_mem _ m))
      (by simp at hf; omega)
    simp [lru.walk, hs.1, hay, ih]

theorem Seg.first {h : List (node K V)} {l : List Nat} {x y : Nat} (hs : Seg h x l y) :
    ∃ f ∈ l ++ [y], nextOf h x = some f := by
  cases l with
  | nil => exact ⟨y, by simp, hs.1⟩
  | cons b l => exact ⟨b, by simp, hs.1⟩

theorem Seg.last {h : List (node K V)} : ∀ {l : List Nat} {x y : Nat}, Seg h x l y →
    ∃ t ∈ x :: l, prevOf h y = some t
  | [], x, y, hs => ⟨x, by simp, hs.2⟩
  | a :: l, x, y, hs => by
    obtain ⟨t, ht, e⟩ := Seg.last hs.2.2
    exact ⟨t, List.mem_cons_of_mem _ ht, e⟩

theorem valid_getElem? {α : Type} {h : List α} {a : Nat} (ha : a < h.length) :
    ∃ nd, h[a]? = some nd := ⟨h[a], List.getElem?_eq_getElem ha⟩

theorem Linked.addr_valid {h : List (node K V)} {as : List Nat} (hl : Linked h as) :
    ∀ a ∈ 0 :: (as ++ [1]), a < h.length := Seg.valid hl.seg

theorem Linked.zero_not_mem {h : List (node K V)} {as : List Nat} (hl : Linked h as) :
    0 ∉ as := by
  have := hl.nodup
  simp [List.nodup_append] at this
  tauto

theorem Linked.one_not_mem {h : List (node K V)} {as : List Nat} (hl : Linked h as) :
    1 ∉ as := by
  have := hl.nodup
  simp [List.nodup_append] at this
  tauto

theorem Linked.nodup_as {h : List (node K V)} {as : List Nat} (hl : Linked h as) :
    as.Nodup := by
  have := hl.nodup
  simp [List.nodup_append] at this
  tauto

theorem removeNode_linked (c : Cache K V) {as : List Nat} {n : Nat}
    (hl : Linked c.heap as) (hn : n ∈ as) :
    ∃ h', removeNode c (some n) = some { c with heap := h' } ∧ SameData c.heap h' ∧
      Linked h' (as.erase n) := by
  obtain ⟨l1, l2, rfl⟩ := List.append_of_mem hn
  have hnd := hl.nodup
  have hn1 : n ∉ l1 := by
    intro m
    have := hnd
    simp [List.nodup_append] at this
    tauto
  have her : (l1 ++ n :: l2).erase n = l1 ++ l2 := by
    rw [List.erase_append_right _ hn1, List.erase_cons_head]
  obtain ⟨p, hp, ep⟩ := Seg.prev_mem hl.seg
  obtain ⟨q, hq, eq⟩ := Seg.next_mem hl.seg
  have hv := hl.addr_valid
  obtain ⟨pd, hpd⟩ := valid_getElem? (hv p (by simp at hp ⊢; tauto))
  obtain ⟨qd, hqd⟩ := valid_getElem? (hv q (by simp at hq ⊢; tauto))
  have hpn : p ≠ n := by
    rintro rfl
    simp [List.nodup_append] at hnd hp
    tauto
  obtain ⟨h', e, len, hk, hvl, N1, N2, P1, P2⟩ := removeNode_heap c ep eq hpd hqd hpn
  refine ⟨h', e, ⟨len, hk, hvl⟩, ?_⟩
  rw [her]
  refine ⟨?_, Seg.detach ep eq N1 N2 P1 P2 hl.seg (by simpa using hnd), ?_, ?_⟩
  · have : (0 :: (l1 ++ l2 ++ [1])).Sublist (0 :: (l1 ++ n :: l2 ++ [1])) := by
      simp
    exact hnd.sublist this
  · rw [P1, hl.head_prev]
    rintro rfl
    simp [List.nodup_append] at hnd hq
    tauto
  · rw [N1, hl.tail_next]
    rintro rfl
    simp [List.nodup_append] at hnd hp
    tauto

theorem addToFront_linked (c : Cache K V) {as : List Nat} {n : Nat}
    (hh : c.head = some 0) (hl : Linked c.heap as) (hn : n ∉ 0 :: (as ++ [1]))
    (hv : n < c.heap.length) :
    ∃ h', addToFront c (some n) = some { c with heap := h' } ∧ SameData c.heap h' ∧
      Linked h' (n :: as) := by
  obtain ⟨f, hf, ef⟩ := Seg.first hl.seg
  obtain ⟨nd, hnd⟩ := valid_getElem? hv
  obtain ⟨fd, hfd⟩ := valid_getElem? (hl.addr_valid f (List.mem_cons_of_mem _ hf))
  have hnodup := hl.nodup
  have hn0 : n ≠ 0 := by
    rintro rfl
    simp at hn
  have hnf : n ≠ f := by
    rintro rfl
    exact hn (List.mem_cons_of_mem _ hf)
  have hf0 : f ≠ 0 := by
    rintro rfl
    exact (List.nodup_cons.1 hnodup).1 hf
  obtain ⟨h', e, len, hk, hvl, N1, N2, N3, P1, P2, P3, P4⟩ :=
    addToFront_heap c hh ef hnd hfd hn0 hnf hf0
  refine ⟨h', e, ⟨len, hk, hvl⟩, ?_, Seg.attach hl.seg hnodup hn ef N1 N2 N3 P1 P2 P3, ?_, ?_⟩
  · simp only [List.cons_append, List.nodup_cons, List.mem_cons] at hn hnodup ⊢
    tauto
  · rw [P4, hl.head_prev]
  · rw [N3, hl.tail_next]
    · decide
    · rintro rfl
      simp at hn

theorem moveToFront_linked (c : Cache K V) {as : List Nat} {n : Nat}
    (hh : c.head = some 0) (hl : Linked c.heap as) (hn : n ∈ as) :
    ∃ h', moveToFront c (some n) = some { c with heap := h' } ∧ SameData c.heap h' ∧
      Linked h' (n :: as.erase n) := by
  obtain ⟨h1, e1, sd1, l1⟩ := removeNode_linked c hl hn
  have hnd := hl.nodup
  have hasn : as.Nodup := hl.nodup_as
  have hn' : n ∉ 0 :: (as.erase n ++ [1]) := by
    simp only [List.mem_cons, List.mem_append, List.not_mem_nil, or_false, not_or]
    refine ⟨?_, ?_, ?_⟩
    · rintro rfl
      exact hl.zero_not_mem hn
    · exact fun m => (List.Nodup.mem_erase_iff hasn).1 m |>.1 rfl
    · rintro rfl
      exact hl.one_not_mem hn
  have hv : n < h1.length := by
    rw [sd1.len]
    exact hl.addr_valid n (by simp; tauto)
  obtain ⟨h2, e2, sd2, l2⟩ := addToFront_linked { c with heap := h1 } hh l1 hn' hv
  refine ⟨h2, ?_, ⟨sd2.len.trans sd1.len, fun a => (sd2.key a).trans (sd1.key a),
    fun a => (sd2.val a).trans (sd1.val a)⟩, l2⟩
  simp only [moveToFront, e1, Option.bind_eq_bind, Option.some_bind]
  exact e2

theorem mapGet_mem [DecidableEq K] {m : List (K × Ptr)} {k : K} {a : Nat} (h : mapGet m k = some a) :
    (k, some a) ∈ m := by
  induction m with
  | nil => simp [mapGet] at h
  | cons e m ih =>
    obtain ⟨k', p⟩ := e
    by_cases hk : k' = k
    · subst hk
      simp [mapGet] at h
      simp [h]
    · simp only [mapGet, hk, if_false] at h
      exact List.mem_cons_of_mem _ (ih h)

theorem mapGet_of_mem [DecidableEq K] {m : List (K × Ptr)} {k : K} {p : Ptr} (hn : (m.map Prod.fst).Nodup)
    (h : (k, p) ∈ m) : mapGet m k = p := by
  induction m with
  | nil => simp at h
  | cons e m ih =>
    obtain ⟨k', p'⟩ := e
    simp only [List.map_cons, List.nodup_cons] at hn
    rcases List.mem_cons.1 h with e | h'
    · cases e
      simp [mapGet]
    · have : k' ≠ k := by
        rintro rfl
        exact hn.1 (List.mem_map.2 ⟨_, h', rfl⟩)
      simp only [mapGet, this, if_false]
      exact ih hn.2 h'

theorem mapGet_eq_none_of_not_mem [DecidableEq K] {m : List (K × Ptr)} {k : K} (h : k ∉ m.map Prod.fst) :
    mapGet m k = none := by
  induction m with
  | nil => rfl
  | cons e m ih =>
    obtain ⟨k', p'⟩ := e
    simp only [List.map_cons, List.mem_cons, not_or] at h
    simp only [mapGet, Ne.symm h.1, if_false]
    exact ih h.2

theorem not_mem_of_mapGet_eq_none [DecidableEq K] {m : List (K × Ptr)} {k : K}
    (hp : ∀ e ∈ m, e.2 ≠ none) (h : mapGet m k = none) : k ∉ m.map Prod.fst := by
  induction m with
  | nil => simp
  | cons e m ih =>
    obtain ⟨k', p'⟩ := e
    by_cases hk : k' = k
    · subst hk
      simp only [mapGet, if_true] at h
      exact absurd h (hp (k', p') (List.mem_cons_self _ _))
    · simp only [mapGet, hk, if_false] at h
      simp only [List.map_cons, List.mem_cons, not_or]
      exact ⟨Ne.symm hk, ih (fun e he => hp e (List.mem_cons_of_mem _ he)) h⟩

theorem mem_mapDelete [DecidableEq K] {m : List (K × Ptr)} {k : K} {e : K × Ptr} :
    e ∈ mapDelete m k ↔ e ∈ m ∧ e.1 ≠ k := by
  simp [mapDelete]

theorem mapDelete_of_not_mem [DecidableEq K] {m : List (K × Ptr)} {k : K} (h : k ∉ m.map Prod.fst) :
    mapDelete m k = m := by
  unfold mapDelete
  rw [List.filter_eq_self]
  intro e he
  simp only [decide_eq_true_eq]
  rintro rfl
  exact h (List.mem_map.2 ⟨e, he, rfl⟩)

theorem mapDelete_keys_sublist [DecidableEq K] (m : List (K × Ptr)) (k : K) :
    ((mapDelete m k).map Prod.fst).Sublist (m.map Prod.fst) :=
  List.Sublist.map _ (List.filter_sublist _)

theorem not_mem_mapDelete_keys [DecidableEq K] (m : List (K × Ptr)) (k : K) :
    k ∉ (mapDelete m k).map Prod.fst := by
  intro h
  obtain ⟨e, he, rfl⟩ := List.mem_map.1 h
  exact (mem_mapDelete.1 he).2 rfl

theorem perm_mapDelete [DecidableEq K] {m : List (K × Ptr)} {k : K} {p : Ptr} (hn : (m.map Prod.fst).Nodup)
    (h : (k, p) ∈ m) : m.Perm ((k, p) :: mapDelete m k) := by
  induction m with
  | nil => simp at h
  | cons e m ih =>
    obtain ⟨k', p'⟩ := e
    simp only [List.map_cons, List.nodup_cons] at hn
    rcases List.mem_cons.1 h with e | h'
    · cases e
      have : mapDelete ((k, p) :: m) k = m := by
        have h1 : mapDelete ((k, p) :: m) k = mapDelete m k := by simp [mapDelete]
        rw [h1, mapDelete_of_not_mem hn.1]
      rw [this]
    · have hk : k' ≠ k := by
        rintro rfl
        exact hn.1 (List.mem_map.2 ⟨_, h', rfl⟩)
      have h1 : mapDelete ((k', p') :: m) k = (k', p') :: mapDelete m k := by
        simp [mapDelete, hk]
      rw [h1]
      exact ((ih hn.2 h').cons _).trans (List.Perm.swap _ _ _)

theorem mapGet_mapDelete [DecidableEq K] (m : List (K × Ptr)) (k k' : K) :
    mapGet (mapDelete m k) k' = if k' = k then none else mapGet m k' := by
  induction m with
  | nil => simp [mapDelete, mapGet]
  | cons e m ih =>
    obtain ⟨k0, p0⟩ := e
    by_cases h0 : k0 = k
    · have h1 : mapDelete ((k0, p0) :: m) k = mapDelete m k := by simp [mapDelete, h0]
      rw [h1, ih]
      by_cases hk : k' = k
      · simp [hk]
      · have : k0 ≠ k' := by rw [h0]; exact Ne.symm hk
        simp [hk, mapGet, this]
    · have h1 : mapDelete ((k0, p0) :: m) k = (k0, p0) :: mapDelete m k := by
        simp [mapDelete, h0]
      rw [h1]
      by_cases hk : k' = k
      · subst hk
        simp only [mapGet, h0, if_false, ih, if_true]
      · by_cases h2 : k0 = k'
        · simp [mapGet, h2, hk]
        · simp only [mapGet, h2, if_false, ih, hk]

theorem mapGet_mapSet [DecidableEq K] (m : List (K × Ptr)) (k k' : K) (p : Ptr) :
    mapGet (mapSet m k p) k' = if k' = k then p else mapGet m k' := by
  by_cases hk : k' = k
  · simp [mapSet, mapGet, hk]
  · have : k ≠ k' := Ne.symm hk
    simp only [mapSet, mapGet, this, if_false, mapGet_mapDelete, hk]

theorem Linked.congr {h h' : List (node K V)} {as : List Nat} (hl : Linked h as)
    (hn : ∀ a ∈ 0 :: (as ++ [1]), nextOf h' a = nextOf h a)
    (hp : ∀ a ∈ 0 :: (as ++ [1]), prevOf h' a = prevOf h a) : Linked h' as := by
  refine ⟨hl.nodup, Seg.frame hl.seg ?_ ?_, ?_, ?_⟩
  · intro z hz
    apply hn
    simp only [List.mem_cons, List.mem_append] at hz ⊢
    tauto
  · intro z hz
    exact hp z (List.mem_cons_of_mem _ hz)
  · rw [hp 0 (by simp), hl.head_prev]
  · rw [hn 1 (by simp), hl.tail_next]

theorem Indexed.ptr_mem {m : List (K × Ptr)} {h : List (node K V)} {as : List Nat}
    (hi : Indexed m h as) {k : K} {p : Ptr} (hm : (k, p) ∈ m) : ∃ a ∈ as, p = some a := by
  have : p ∈ m.map Prod.snd := List.mem_map.2 ⟨_, hm, rfl⟩
  have := (hi.ptrs.mem_iff).1 this
  obtain ⟨a, ha, e⟩ := List.mem_map.1 this
  exact ⟨a, ha, e.symm⟩

theorem Indexed.mem_index {m : List (K × Ptr)} {h : List (node K V)} {as : List Nat}
    (hi : Indexed m h as) {a : Nat} (ha : a ∈ as) :
    ∃ k, (k, some a) ∈ m ∧ keyOf h a = some k := by
  have : some a ∈ as.map some := List.mem_map.2 ⟨a, ha, rfl⟩
  have := (hi.ptrs.mem_iff).2 this
  obtain ⟨e, he, e2⟩ := List.mem_map.1 this
  obtain ⟨k, p⟩ := e
  simp only at e2
  subst e2
  exact ⟨k, he, hi.key k a he⟩

theorem Indexed.mapGet_some [DecidableEq K] {m : List (K × Ptr)} {h : List (node K V)} {as : List Nat}
    (hi : Indexed m h as) {k : K} {a : Nat} (hg : mapGet m k = some a) :
    a ∈ as ∧ keyOf h a = some k := by
  have hm := mapGet_mem hg
  obtain ⟨a', ha', e⟩ := hi.ptr_mem hm
  cases e
  exact ⟨ha', hi.key k a hm⟩

theorem Indexed.mapGet_none [DecidableEq K] {m : List (K × Ptr)} {h : List (node K V)} {as : List Nat}
    (hi : Indexed m h as) {k : K} (hg : mapGet m k = none) : k ∉ m.map Prod.fst := by
  apply not_mem_of_mapGet_eq_none _ hg
  rintro ⟨k', p⟩ he
  obtain ⟨a, _, e⟩ := hi.ptr_mem he
  simp [e]

theorem Indexed.mapGet_of_key [DecidableEq K] {m : List (K × Ptr)} {h : List (node K V)} {as : List Nat}
    (hi : Indexed m h as) {k : K} {a : Nat} (ha : a ∈ as) (hk : keyOf h a = some k) :
    mapGet m k = some a := by
  obtain ⟨k', hm, hk'⟩ := hi.mem_index ha
  rw [hk] at hk'
  cases hk'
  exact mapGet_of_mem hi.keys hm

theorem Indexed.reorder [DecidableEq K] {m : List (K × Ptr)} {h h' : List (node K V)} {as as' : List Nat}
    (hi : Indexed m h as) (hk : ∀ a ∈ as, keyOf h' a = keyOf h a) (hp : as'.Perm as) :
    Indexed m h' as' := by
  refine ⟨hi.keys, hi.ptrs.trans (hp.map _).symm, ?_⟩
  intro k a hm
  obtain ⟨a', ha', e⟩ := hi.ptr_mem hm
  cases e
  rw [hk a ha']
  exact hi.key k a hm

theorem Indexed.delete [DecidableEq K] {m : List (K × Ptr)} {h h' : List (node K V)} {as : List Nat}
    (hi : Indexed m h as) {k : K} {n : Nat} (hm : (k, some n) ∈ m)
    (hk : ∀ a ∈ as, keyOf h' a = keyOf h a) : Indexed (mapDelete m k) h' (as.erase n) := by
  obtain ⟨n', hn, e⟩ := hi.ptr_mem hm
  cases e
  refine ⟨hi.keys.sublist (mapDelete_keys_sublist m k), ?_, ?_⟩
  · have h1 := (perm_mapDelete hi.keys hm).map Prod.snd
    have h2 := (List.perm_cons_erase hn).map (some : Nat → Option Nat)
    simp only [List.map_cons] at h1 h2
    exact List.Perm.cons_inv ((h1.symm.trans hi.ptrs).trans h2)
  · intro k' a hm'
    have hm2 := (mem_mapDelete.1 hm').1
    obtain ⟨a', ha', e⟩ := hi.ptr_mem hm2
    cases e
    rw [hk a ha']
    exact hi.key k' a hm2

theorem Indexed.insert [DecidableEq K] {m : List (K × Ptr)} {h h' : List (node K V)} {as : List Nat}
    (hi : Indexed m h as) {k : K} {n : Nat} (hm : k ∉ m.map Prod.fst)
    (hn : keyOf h' n = some k) (hk : ∀ a ∈ as, keyOf h' a = keyOf h a) :
    Indexed (mapSet m k (some n)) h' (n :: as) := by
  unfold mapSet
  rw [mapDelete_of_not_mem hm]
  refine ⟨?_, ?_, ?_⟩
  · simp only [List.map_cons, List.nodup_cons]
    exact ⟨hm, hi.keys⟩
  · simp only [List.map_cons]
    exact hi.ptrs.cons _
  · intro k' a hm'
    rcases List.mem_cons.1 hm' with e | hm2
    · cases e
      exact hn
    · obtain ⟨a', ha', e⟩ := hi.ptr_mem hm2
      cases e
      rw [hk a ha']
      exact hi.key k' a hm2

theorem store_value (h : List (node K V)) {n : Nat} {nd : node K V} (v : V)
    (hn : h[n]? = some nd) :
    ∃ h', store h (some n) (fun x => { x with value := v }) = some h' ∧
      h'.length = h.length ∧ (∀ a, keyOf h' a = keyOf h a) ∧
      (∀ a, valOf h' a = if a = n then some v else valOf h a) ∧
      (∀ a, nextOf h' a = nextOf h a) ∧ (∀ a, prevOf h' a = prevOf h a) := by
  refine ⟨h.set n { nd with value := v }, by simp [store, hn], by simp, ?_, ?_, ?_, ?_⟩
  · intro a
    simp only [keyOf, getElem?_set_valid _ _ hn]
    by_cases e : a = n <;> simp [e, hn]
  · intro a
    simp only [valOf, getElem?_set_valid _ _ hn]
    by_cases e : a = n <;> simp [e]
  · intro a
    simp only [nextOf, getElem?_set_valid _ _ hn]
    by_cases e : a = n <;> simp [e, hn]
  · intro a
    simp only [prevOf, getElem?_set_valid _ _ hn]
    by_cases e : a = n <;> simp [e, hn]

theorem alloc_old (h : List (node K V)) (x : node K V) {a : Nat} (ha : a < h.length) :
    keyOf (h ++ [x]) a = keyOf h a ∧ valOf (h ++ [x]) a = valOf h a ∧
      nextOf (h ++ [x]) a = nextOf h a ∧ prevOf (h ++ [x]) a = prevOf h a := by
  simp [keyOf, valOf, nextOf, prevOf, List.getElem?_append_left ha]

theorem alloc_new (h : List (node K V)) (x : node K V) :
    load (h ++ [x]) (some h.length) = some x ∧
      keyOf (h ++ [x]) h.length = some x.key ∧ valOf (h ++ [x]) h.length = some x.value := by
  simp [load, keyOf, valOf]

theorem Linked.alloc [DecidableEq K] {h : List (node K V)} {as : List Nat} (hl : Linked h as)
    (x : node K V) : Linked (h ++ [x]) as ∧ h.length ∉ 0 :: (as ++ [1]) := by
  refine ⟨hl.congr (fun a ha => (alloc_old h x (hl.addr_valid a ha)).2.2.1)
    (fun a ha => (alloc_old h x (hl.addr_valid a ha)).2.2.2), ?_⟩
  intro hm
  exact absurd (hl.addr_valid _ hm) (lt_irrefl _)

theorem valOf_of_valid (h : List (node K V)) {a : Nat} (ha : a < h.length) :
    ∃ nd, h[a]? = some nd ∧ load h (some a) = some nd ∧ valOf h a = some nd.value ∧
      keyOf h a = some nd.key := by
  obtain ⟨nd, e⟩ := valid_getElem? ha
  exact ⟨nd, e, e, by simp [valOf, e], by simp [keyOf, e]⟩

theorem Inv.mem_valid {c : Cache K V} {as : List Nat} (hI : Inv c as) {a : Nat}
    (ha : a ∈ as) : a < c.heap.length :=
  hI.linked.addr_valid a (by simp [ha])

theorem Get_miss [DecidableEq K] [Inhabited V] (c : Cache K V) (k : K) (hg : mapGet c.cache k = none) :
    Get c k = some (c, default, some Error.ErrNotFound) := by
  simp [Get, hg]

theorem Get_hit [DecidableEq K] [Inhabited V] {c : Cache K V} {as : List Nat} {k : K} {n : Nat}
    (hI : Inv c as) (hg : mapGet c.cache k = some n) :
    ∃ h' v, Get c k = some ({ c with heap := h' }, v, none) ∧ valOf c.heap n = some v ∧
      SameData c.heap h' ∧ Inv { c with heap := h' } (n :: as.erase n) := by
  have hn := (hI.indexed.mapGet_some hg).1
  obtain ⟨h', e, sd, hl⟩ := moveToFront_linked c hI.head_eq hI.linked hn
  obtain ⟨nd, _, e2, e3, _⟩ := valOf_of_valid h' (a := n) (by rw [sd.len]; exact hI.mem_valid hn)
  refine ⟨h', nd.value, ?_, by rw [← sd.val, e3], sd, ?_⟩
  · simp only [Get, hg, e, e2, Option.bind_eq_bind, Option.some_bind]
    simp
  · exact ⟨hI.head_eq, hI.tail_eq, hl,
      hI.indexed.reorder (fun a _ => sd.key a) (List.perm_cons_erase hn).symm,
      by simpa [(List.perm_cons_erase hn).length_eq] using hI.size_eq, hI.size_le, hI.cap_pos⟩

theorem Put_hit [DecidableEq K] {c : Cache K V} {as : List Nat} {k : K} {n : Nat} (v : V)
    (hI : Inv c as) (hg : mapGet c.cache k = some n) :
    ∃ h', Put c k v = some ({ c with heap := h' }, none) ∧ h'.length = c.heap.length ∧
      (∀ a, keyOf h' a = keyOf c.heap a) ∧
      (∀ a, valOf h' a = if a = n then some v else valOf c.heap a) ∧
      Inv { c with heap := h' } (n :: as.erase n) := by
  have hn := (hI.indexed.mapGet_some hg).1
  obtain ⟨nd, e0, _⟩ := valOf_of_valid c.heap (hI.mem_valid hn)
  obtain ⟨h1, e1, len1, k1, v1, n1, p1⟩ := store_value c.heap v e0
  have hl1 : Linked h1 as := hI.linked.congr (fun a _ => n1 a) (fun a _ => p1 a)
  obtain ⟨h', e, sd, hl⟩ := moveToFront_linked { c with heap := h1 } hI.head_eq hl1 hn
  refine ⟨h', ?_, sd.len.trans len1, fun a => (sd.key a).trans (k1 a),
    fun a => (sd.val a).trans (v1 a), ?_⟩
  · simp only [Put, hg, e1, e, Option.bind_eq_bind, Option.some_bind]
    simp
  · exact ⟨hI.head_eq, hI.tail_eq, hl,
      hI.indexed.reorder (fun a _ => (sd.key a).trans (k1 a)) (List.perm_cons_erase hn).symm,
      by simpa [(List.perm_cons_erase hn).length_eq] using hI.size_eq, hI.size_le, hI.cap_pos⟩

theorem Remove_miss [DecidableEq K] (c : Cache K V) (k : K) (hg : mapGet c.cache k = none) :
    Remove c k = some (c, false) := by
  simp [Remove, hg]

theorem Remove_hit [DecidableEq K] {c : Cache K V} {as : List Nat} {k : K} {n : Nat}
    (hI : Inv c as) (hg : mapGet c.cache k = some n) :
    ∃ h', Remove c k =
        some ({ c with cache := mapDelete c.cache k, heap := h', size := c.size - 1 }, true) ∧
      SameData c.heap h' ∧
      Inv { c with cache := mapDelete c.cache k, heap := h', size := c.size - 1 }
        (as.erase n) := by
  obtain ⟨hn, hk⟩ := hI.indexed.mapGet_some hg
  obtain ⟨nd, _, e0, _, e1⟩ := valOf_of_valid c.heap (hI.mem_valid hn)
  have hkey : nd.key = k := by
    rw [hk] at e1
    exact (Option.some.inj e1).symm
  obtain ⟨h', e, sd, hl⟩ :=
    removeNode_linked { c with cache := mapDelete c.cache nd.key } hI.linked hn
  refine ⟨h', ?_, sd, ?_⟩
  · simp only [Remove, hg, e0, e, Option.bind_eq_bind, Option.some_bind]
    simp [hkey]
  · have hlen : (as.erase n).length = as.length - 1 := List.length_erase_of_mem hn
    have hpos : 0 < as.length := List.length_pos_of_mem hn
    refine ⟨hI.head_eq, hI.tail_eq, hl,
      hI.indexed.delete (mapGet_mem hg) (fun a _ => sd.key a), ?_, ?_, hI.cap_pos⟩
    · have := hI.size_eq
      simp only [hlen]
      omega
    · have := hI.size_le
      simp only
      omega

theorem Seg.suffix {h : List (node K V)} : ∀ {s : List Nat} {x n : Nat} {l2 : List Nat}
    {y : Nat}, Seg h x (s ++ n :: l2) y → Seg h n l2 y
  | [], _, _, _, _, hs => hs.2.2
  | _ :: l1, _, _, _, _, hs => Seg.suffix (s := l1) hs.2.2

theorem insert_front [DecidableEq K] {d : Cache K V} {as1 : List Nat} (k : K) (v : V)
    (hh : d.head = some 0) (hl : Linked d.heap as1) (hi : Indexed d.cache d.heap as1)
    (hk : k ∉ d.cache.map Prod.fst) :
    ∃ h', addToFront { d with heap := d.heap ++ [⟨k, v, none, none⟩],
                                cache := mapSet d.cache k (some d.heap.length) }
        (some d.heap.length) =
        some { d with heap := h', cache := mapSet d.cache k (some d.heap.length) } ∧
      h'.length = d.heap.length + 1 ∧
      (∀ a, a < d.heap.length → keyOf h' a = keyOf d.heap a ∧ valOf h' a = valOf d.heap a) ∧
      keyOf h' d.heap.length = some k ∧ valOf h' d.heap.length = some v ∧
      Linked h' (d.heap.length :: as1) ∧
      Indexed (mapSet d.cache k (some d.heap.length)) h' (d.heap.length :: as1) := by
  obtain ⟨hl2, hfresh⟩ := hl.alloc (⟨k, v, none, none⟩ : node K V)
  obtain ⟨h', e, sd, hl3⟩ := addToFront_linked
    { d with heap := d.heap ++ [⟨k, v, none, none⟩],
              cache := mapSet d.cache k (some d.heap.length) } hh hl2 hfresh (by simp)
  have hnew := alloc_new d.heap (⟨k, v, none, none⟩ : node K V)
  have hkey : keyOf h' d.heap.length = some k := by rw [sd.key]; exact hnew.2.1
  have hold : ∀ a, a < d.heap.length →
      keyOf h' a = keyOf d.heap a ∧ valOf h' a = valOf d.heap a := by
    intro a ha
    have := alloc_old d.heap (⟨k, v, none, none⟩ : node K V) ha
    exact ⟨(sd.key a).trans this.1, (sd.val a).trans this.2.1⟩
  refine ⟨h', e, by simpa using sd.len, hold, hkey, by rw [sd.val]; exact hnew.2.2, hl3, ?_⟩
  exact hi.insert hk hkey (fun a ha => (hold a (hl.addr_valid a (by simp [ha]))).1)

theorem Put_room [DecidableEq K] {c : Cache K V} {as : List Nat} (k : K) (v : V)
    (hI : Inv c as) (hg : mapGet c.cache k = none) (hs : c.size < c.capacity) :
    ∃ h', Put c k v = some ({ c with size := c.size + 1,
                                      cache := mapSet c.cache k (some c.heap.length),
                                      heap := h' }, none) ∧
      h'.length = c.heap.length + 1 ∧
      (∀ a, a < c.heap.length → keyOf h' a = keyOf c.heap a ∧ valOf h' a = valOf c.heap a) ∧
      keyOf h' c.heap.length = some k ∧ valOf h' c.heap.length = some v ∧
      Inv { c with size := c.size + 1, cache := mapSet c.cache k (some c.heap.length),
                   heap := h' } (c.heap.length :: as) := by
  have hk := hI.indexed.mapGet_none hg
  obtain ⟨h', e, len, hold, hkey, hval, hl, hi⟩ :=
    insert_front (d := { c with size := c.size + 1 }) k v hI.head_eq hI.linked hI.indexed hk
  refine ⟨h', ?_, len, hold, hkey, hval, ?_⟩
  · have hnf : ¬ c.size ≥ c.capacity := not_le.2 hs
    simp only [Put, hg, hnf, (alloc_new _ _).1, Option.bind_eq_bind, Option.some_bind]
    simp only [ne_eq, not_true_eq_false, if_false]
    simp only at e
    rw [e]
    rfl
  · refine ⟨hI.head_eq, hI.tail_eq, hl, hi, ?_, ?_, hI.cap_pos⟩
    · simp [hI.size_eq]
    · simp only
      omega

theorem Put_full [DecidableEq K] {c : Cache K V} {as : List Nat} (k : K) (v : V)
    (hI : Inv c as) (hg : mapGet c.cache k = none) (hs : c.capacity ≤ c.size) :
    ∃ as' t kt h', as = as' ++ [t] ∧ keyOf c.heap t = some kt ∧
      Put c k v = some ({ c with cache := mapSet (mapDelete c.cache kt) k (some c.heap.length),
                                 heap := h' }, none) ∧
      h'.length = c.heap.length + 1 ∧
      (∀ a, a < c.heap.length → keyOf h' a = keyOf c.heap a ∧ valOf h' a = valOf c.heap a) ∧
      keyOf h' c.heap.length = some k ∧ valOf h' c.heap.length = some v ∧
      Inv { c with cache := mapSet (mapDelete c.cache kt) k (some c.heap.length),
                   heap := h' } (c.heap.length :: as') := by
  have hk := hI.indexed.mapGet_none hg
  have hpos : 0 < as.length := by
    have h1 := hI.size_eq
    have h2 := hI.cap_pos
    omega
  rcases List.eq_nil_or_concat as with rfl | ⟨as', t, hcat⟩
  · simp at hpos
  rw [List.concat_eq_append] at hcat
  subst hcat
  have ht : t ∈ as' ++ [t] := by simp
  have hseg : Seg c.heap t [] 1 := Seg.suffix hI.linked.seg
  have hprev : prevOf c.heap 1 = some t := hseg.2
  obtain ⟨tl, htl, htlp⟩ := prevOf_eq_some hprev
  have hnt : t ∉ as' := by
    have := hI.linked.nodup_as
    simp [List.nodup_append] at this
    tauto
  have her : (as' ++ [t]).erase t = as' := by
    rw [List.erase_append_right _ hnt]
    simp
  obtain ⟨h1, e1, sd1, hl1⟩ := removeNode_linked c hI.linked ht
  rw [her] at hl1
  obtain ⟨kt, hm, hkt⟩ := hI.indexed.mem_index ht
  obtain ⟨td, _, e2, _, e3⟩ := valOf_of_valid h1 (a := t)
    (by rw [sd1.len]; exact hI.mem_valid ht)
  have hkey : td.key = kt := by
    rw [sd1.key, hkt] at e3
    exact (Option.some.inj e3).symm
  have hi1 : Indexed (mapDelete c.cache kt) h1 as' := by
    have := hI.indexed.delete hm (fun a _ => sd1.key a)
    rwa [her] at this
  have hk1 : k ∉ (mapDelete c.cache kt).map Prod.fst :=
    fun hmem => hk ((mapDelete_keys_sublist c.cache kt).subset hmem)
  obtain ⟨h', e, len, hold, hnk, hnv, hl, hi⟩ :=
    insert_front (d := { c with heap := h1, cache := mapDelete c.cache kt }) k v
      hI.head_eq hl1 hi1 hk1
  simp only [sd1.len] at e len hold hnk hnv hl hi
  refine ⟨as', t, kt, h', rfl, hkt, ?_, len, ?_, hnk, hnv, ?_⟩
  · have hf : c.size ≥ c.capacity := hs
    have hlt : load c.heap c.tail = some tl := by
      rw [hI.tail_eq]
      exact htl
    have hld : load (h1 ++ [(⟨k, v, none, none⟩ : node K V)]) (some c.heap.length) =
        some ⟨k, v, none, none⟩ := by
      rw [← sd1.len]
      exact (alloc_new _ _).1
    simp only [Put, hg, hf, removeTail, hlt, htlp, e1, e2, hkey,
      Option.bind_eq_bind, Option.some_bind]
    simp only [ne_eq, not_true_eq_false, if_false, if_true, sd1.len, hld, Option.some_bind]
    rw [e]
    rfl
  · intro a ha
    have := hold a ha
    exact ⟨this.1.trans (sd1.key a), this.2.trans (sd1.val a)⟩
  · refine ⟨hI.head_eq, hI.tail_eq, hl, hi, ?_, hI.size_le, hI.cap_pos⟩
    have := hI.size_eq
    simp only [List.length_append, List.length_singleton, List.length_cons] at this ⊢
    exact this

theorem dataOf_eq_some {h : List (node K V)} {a : Nat} {k : K} {v : V} :
    dataOf h a = some (k, v) ↔ keyOf h a = some k ∧ valOf h a = some v := by
  unfold dataOf keyOf valOf
  cases h[a]? with
  | none => simp
  | some nd => simp

theorem dataOf_congr {h h' : List (node K V)} {a : Nat} (hk : keyOf h' a = keyOf h a)
    (hv : valOf h' a = valOf h a) : dataOf h' a = dataOf h a := by
  unfold dataOf keyOf valOf at *
  cases e : h[a]? with
  | none =>
    cases e' : h'[a]? with
    | none => rfl
    | some nd' => simp [e, e'] at hk
  | some nd =>
    cases e' : h'[a]? with
    | none => simp [e, e'] at hk
    | some nd' =>
      simp only [e, e', Option.some.injEq] at hk hv
      simp [hk, hv]

theorem dataOf_valid {h : List (node K V)} {a : Nat} (ha : a < h.length) :
    ∃ k v, dataOf h a = some (k, v) := by
  obtain ⟨nd, e⟩ := valid_getElem? ha
  exact ⟨nd.key, nd.value, by simp [dataOf, e]⟩

theorem nat_nodup_length_le {l : List Nat} {n : Nat} (hn : l.Nodup) (hb : ∀ a ∈ l, a < n) :
    l.length ≤ n := by
  have hs : l ⊆ List.range n := fun a ha => List.mem_range.2 (hb a ha)
  have := (List.subperm_of_subset hn hs).length_le
  simpa using this

theorem Inv.order_eq {c : Cache K V} {as : List Nat} (hI : Inv c as) : order c = as := by
  obtain ⟨f, _, ef⟩ := Seg.first hI.linked.seg
  obtain ⟨hd, e1, e2⟩ := nextOf_eq_some ef
  have hlen : as.length < c.heap.length := by
    have h1 := nat_nodup_length_le hI.linked.nodup hI.linked.addr_valid
    simp at h1
    omega
  have hw := Seg.walk c.heap.length hI.linked.seg hI.linked.one_not_mem hlen
  rw [ef] at hw
  simp only [order, load, hI.head_eq, e1, hI.tail_eq, e2]
  exact hw

theorem Inv.entries_eq [DecidableEq K] {c : Cache K V} {as : List Nat} (hI : Inv c as) :
    entries c = as.filterMap (dataOf c.heap) := by
  simp only [entries, hI.order_eq]

theorem length_filterMap_of_some {α β : Type} (f : α → Option β) :
    ∀ (l : List α), (∀ a ∈ l, ∃ b, f a = some b) → (l.filterMap f).length = l.length
  | [], _ => rfl
  | a :: l, h => by
    obtain ⟨b, e⟩ := h a (by simp)
    simp [List.filterMap_cons, e,
      length_filterMap_of_some f l (fun x hx => h x (List.mem_cons_of_mem _ hx))]

theorem Inv.length_entries [DecidableEq K] {c : Cache K V} {as : List Nat} (hI : Inv c as) :
    (entries c).length = as.length := by
  rw [hI.entries_eq]
  apply length_filterMap_of_some
  intro a ha
  obtain ⟨k, v, e⟩ := dataOf_valid (hI.mem_valid ha)
  exact ⟨_, e⟩

theorem Inv.mem_entries [DecidableEq K] {c : Cache K V} {as : List Nat} (hI : Inv c as) {k : K} {v : V} :
    (k, v) ∈ entries c ↔ ∃ n, mapGet c.cache k = some n ∧ valOf c.heap n = some v := by
  rw [hI.entries_eq, List.mem_filterMap]
  constructor
  · rintro ⟨n, hn, e⟩
    obtain ⟨e1, e2⟩ := dataOf_eq_some.1 e
    exact ⟨n, hI.indexed.mapGet_of_key hn e1, e2⟩
  · rintro ⟨n, hg, hv⟩
    obtain ⟨hn, hk⟩ := hI.indexed.mapGet_some hg
    exact ⟨n, hn, dataOf_eq_some.2 ⟨hk, hv⟩⟩

theorem Inv.mem_keys [DecidableEq K] {c : Cache K V} {as : List Nat} (hI : Inv c as) {k : K} :
    k ∈ keys c ↔ ∃ n, mapGet c.cache k = some n := by
  simp only [keys, List.mem_map, Prod.exists, exists_and_right, exists_eq_right]
  constructor
  · rintro ⟨v, hv⟩
    obtain ⟨n, hg, _⟩ := hI.mem_entries.1 hv
    exact ⟨n, hg⟩
  · rintro ⟨n, hg⟩
    obtain ⟨hn, _⟩ := hI.indexed.mapGet_some hg
    obtain ⟨nd, _, _, e, _⟩ := valOf_of_valid c.heap (hI.mem_valid hn)
    exact ⟨nd.value, hI.mem_entries.2 ⟨n, hg, e⟩⟩

theorem Inv.mem_indexKeys [DecidableEq K] {c : Cache K V} {as : List Nat} (hI : Inv c as) {k : K} :
    k ∈ indexKeys c ↔ ∃ n, mapGet c.cache k = some n := by
  constructor
  · intro hk
    obtain ⟨⟨k', p⟩, he, rfl⟩ := List.mem_map.1 hk
    obtain ⟨a, _, rfl⟩ := hI.indexed.ptr_mem he
    exact ⟨a, mapGet_of_mem hI.indexed.keys he⟩
  · rintro ⟨n, hg⟩
    exact List.mem_map.2 ⟨_, mapGet_mem hg, rfl⟩

theorem Inv.not_mem_indexKeys [DecidableEq K] {c : Cache K V} {as : List Nat} (hI : Inv c as) {k : K} :
    k ∉ indexKeys c ↔ mapGet c.cache k = none := by
  rw [hI.mem_indexKeys]
  cases mapGet c.cache k <;> simp

theorem nodup_filterMap_of_inj_on {α β : Type} (f : α → Option β) :
    ∀ (l : List α), l.Nodup →
      (∀ a ∈ l, ∀ b ∈ l, ∀ x, f a = some x → f b = some x → a = b) →
      (l.filterMap f).Nodup
  | [], _, _ => by simp
  | a :: l, hn, hinj => by
    have ih := nodup_filterMap_of_inj_on f l (List.nodup_cons.1 hn).2
      (fun x hx y hy => hinj x (List.mem_cons_of_mem _ hx) y (List.mem_cons_of_mem _ hy))
    cases e : f a with
    | none => simpa [List.filterMap_cons, e] using ih
    | some b =>
      simp only [List.filterMap_cons, e, List.nodup_cons]
      refine ⟨?_, ih⟩
      intro hb
      obtain ⟨a', ha', e'⟩ := List.mem_filterMap.1 hb
      have := hinj a (by simp) a' (List.mem_cons_of_mem _ ha') b e e'
      subst this
      exact (List.nodup_cons.1 hn).1 ha'

theorem Inv.keys_nodup [DecidableEq K] {c : Cache K V} {as : List Nat} (hI : Inv c as) : (keys c).Nodup := by
  have e : keys c = as.filterMap (keyOf c.heap) := by
    simp only [keys, hI.entries_eq, List.map_filterMap]
    apply List.filterMap_congr
    intro a _
    simp only [dataOf, keyOf]
    cases c.heap[a]? <;> rfl
  rw [e]
  apply nodup_filterMap_of_inj_on _ _ hI.linked.nodup_as
  intro a ha b hb k e1 e2
  have h1 := hI.indexed.mapGet_of_key ha e1
  have h2 := hI.indexed.mapGet_of_key hb e2
  rw [h1] at h2
  exact Option.some.inj h2

theorem Inv.keys_perm [DecidableEq K] {c : Cache K V} {as : List Nat} (hI : Inv c as) :
    (indexKeys c).Perm (keys c) := by
  have hk : (indexKeys c).Nodup := hI.indexed.keys
  rw [List.perm_ext_iff_of_nodup hk hI.keys_nodup]
  intro k
  rw [hI.mem_indexKeys, hI.mem_keys]

theorem filterMap_erase_eq_filter [DecidableEq K] {h : List (node K V)} {k : K} {n : Nat} :
    ∀ (l : List Nat), (∀ a ∈ l, a < h.length) →
      (∀ a ∈ l, keyOf h a = some k ↔ a = n) →
      (l.filter (fun a => decide (a ≠ n))).filterMap (dataOf h) =
        (l.filterMap (dataOf h)).filter (fun e => decide (e.1 ≠ k))
  | [], _, _ => rfl
  | a :: l, hv, hk => by
    have ih := filterMap_erase_eq_filter l (fun x hx => hv x (List.mem_cons_of_mem _ hx))
      (fun x hx => hk x (List.mem_cons_of_mem _ hx))
    obtain ⟨k', v', e⟩ := dataOf_valid (hv a (by simp))
    have hk' := (dataOf_eq_some.1 e).1
    by_cases han : a = n
    · have : k' = k := by
        have := (hk a (by simp)).2 han
        rw [hk'] at this
        exact Option.some.inj this
      subst han
      simpa [List.filter_cons, List.filterMap_cons, e, this] using ih
    · have : k' ≠ k := by
        rintro rfl
        exact han ((hk a (by simp)).1 hk')
      simpa [List.filter_cons, List.filterMap_cons, han, e, this] using ih

theorem Inv.entries_erase [DecidableEq K] {c : Cache K V} {as : List Nat} (hI : Inv c as) {k : K} {n : Nat}
    (hg : mapGet c.cache k = some n) :
    (as.erase n).filterMap (dataOf c.heap) =
      (entries c).filter (fun e => decide (e.1 ≠ k)) := by
  obtain ⟨hn, hk⟩ := hI.indexed.mapGet_some hg
  have key := filterMap_erase_eq_filter (h := c.heap) (k := k) (n := n) as
    (fun a ha => hI.mem_valid ha) (by
      intro a ha
      constructor
      · intro e
        have := hI.indexed.mapGet_of_key ha e
        rw [hg] at this
        exact (Option.some.inj this).symm
      · rintro rfl
        exact hk)
  rw [hI.entries_eq, ← key, hI.linked.nodup_as.erase_eq_filter]
  congr 1
  apply List.filter_congr
  intro a _
  by_cases e : a = n <;> simp [e]

theorem Get_present [DecidableEq K] [Inhabited V] {c : Cache K V} {as : List Nat} {k : K} {n : Nat}
    (hI : Inv c as) (hg : mapGet c.cache k = some n) :
    ∃ c' v, Get c k = some (c', v, none) ∧ valOf c.heap n = some v ∧
      Inv c' (n :: as.erase n) ∧
      entries c' = (k, v) :: (entries c).filter (fun e => decide (e.1 ≠ k)) ∧
      c'.cache = c.cache ∧ c'.size = c.size ∧ c'.capacity = c.capacity := by
  obtain ⟨h', v, e, hv, sd, hI'⟩ := Get_hit hI hg
  obtain ⟨hn, hk⟩ := hI.indexed.mapGet_some hg
  refine ⟨_, v, e, hv, hI', ?_, rfl, rfl, rfl⟩
  rw [hI'.entries_eq, ← hI.entries_erase hg]
  have hd : dataOf h' n = some (k, v) :=
    dataOf_eq_some.2 ⟨(sd.key n).trans hk, (sd.val n).trans hv⟩
  simp only [List.filterMap_cons, hd]
  congr 1
  exact List.filterMap_congr (fun a _ => dataOf_congr (sd.key a) (sd.val a))

theorem Put_present [DecidableEq K] {c : Cache K V} {as : List Nat} {k : K} {n : Nat} (v : V)
    (hI : Inv c as) (hg : mapGet c.cache k = some n) :
    ∃ c', Put c k v = some (c', none) ∧ Inv c' (n :: as.erase n) ∧
      entries c' = (k, v) :: (entries c).filter (fun e => decide (e.1 ≠ k)) ∧
      c'.cache = c.cache ∧ c'.size = c.size ∧ c'.capacity = c.capacity := by
  obtain ⟨h', e, _, hk', hv', hI'⟩ := Put_hit v hI hg
  obtain ⟨hn, hk⟩ := hI.indexed.mapGet_some hg
  refine ⟨_, e, hI', ?_, rfl, rfl, rfl⟩
  rw [hI'.entries_eq, ← hI.entries_erase hg]
  have hd : dataOf h' n = some (k, v) :=
    dataOf_eq_some.2 ⟨(hk' n).trans hk, by simp [hv']⟩
  simp only [List.filterMap_cons, hd]
  congr 1
  apply List.filterMap_congr
  intro a ha
  have hne : a ≠ n := fun e => ((List.Nodup.mem_erase_iff hI.linked.nodup_as).1 ha).1 e
  exact dataOf_congr (hk' a) (by simp [hv', hne])

theorem Put_absent_room [DecidableEq K] {c : Cache K V} {as : List Nat} (k : K) (v : V)
    (hI : Inv c as) (hg : mapGet c.cache k = none) (hs : c.size < c.capacity) :
    ∃ c', Put c k v = some (c', none) ∧ Inv c' (c.heap.length :: as) ∧
      entries c' = (k, v) :: entries c ∧
      c'.cache = mapSet c.cache k (some c.heap.length) ∧ c'.size = c.size + 1 ∧
      c'.capacity = c.capacity := by
  obtain ⟨h', e, _, hold, hnk, hnv, hI'⟩ := Put_room k v hI hg hs
  refine ⟨_, e, hI', ?_, rfl, rfl, rfl⟩
  rw [hI'.entries_eq, hI.entries_eq]
  have hd : dataOf h' c.heap.length = some (k, v) := dataOf_eq_some.2 ⟨hnk, hnv⟩
  simp only [List.filterMap_cons, hd]
  congr 1
  apply List.filterMap_congr
  intro a ha
  have := hold a (hI.mem_valid ha)
  exact dataOf_congr this.1 this.2

theorem Put_absent_full [DecidableEq K] {c : Cache K V} {as : List Nat} (k : K) (v : V)
    (hI : Inv c as) (hg : mapGet c.cache k = none) (hs : c.capacity ≤ c.size) :
    ∃ c' as' t kt, as = as' ++ [t] ∧ keyOf c.heap t = some kt ∧
      Put c k v = some (c', none) ∧ Inv c' (c.heap.length :: as') ∧
      entries c' = (k, v) :: (entries c).dropLast ∧
      c'.cache = mapSet (mapDelete c.cache kt) k (some c.heap.length) ∧
      c'.size = c.size ∧ c'.capacity = c.capacity := by
  obtain ⟨as', t, kt, h', has, hkt, e, _, hold, hnk, hnv, hI'⟩ := Put_full k v hI hg hs
  refine ⟨_, as', t, kt, has, hkt, e, hI', ?_, rfl, rfl, rfl⟩
  rw [hI'.entries_eq, hI.entries_eq]
  have hd : dataOf h' c.heap.length = some (k, v) := dataOf_eq_some.2 ⟨hnk, hnv⟩
  subst has
  obtain ⟨k0, v0, e0⟩ := dataOf_valid (hI.mem_valid (a := t) (by simp))
  simp only [List.filterMap_cons, hd, List.filterMap_append, e0, List.filterMap_nil,
    List.dropLast_concat]
  congr 1
  apply List.filterMap_congr
  intro a ha
  have := hold a (hI.mem_valid (by simp [ha]))
  exact dataOf_congr this.1 this.2

theorem Remove_present [DecidableEq K] {c : Cache K V} {as : List Nat} {k : K} {n : Nat}
    (hI : Inv c as) (hg : mapGet c.cache k = some n) :
    ∃ c', Remove c k = some (c', true) ∧ Inv c' (as.erase n) ∧
      entries c' = (entries c).filter (fun e => decide (e.1 ≠ k)) ∧
      c'.cache = mapDelete c.cache k ∧ c'.size = c.size - 1 ∧
      c'.capacity = c.capacity := by
  obtain ⟨h', e, sd, hI'⟩ := Remove_hit hI hg
  refine ⟨_, e, hI', ?_, rfl, rfl, rfl⟩
  rw [hI'.entries_eq, ← hI.entries_erase hg]
  exact List.filterMap_congr (fun a _ => dataOf_congr (sd.key a) (sd.val a))

theorem New_nonpos [Inhabited K] [Inhabited V] (n : Int) (h : n ≤ 0) :
    New K V n = some (none, some Error.ErrInvalidCapacity) := by
  simp [New, h]

theorem New_pos [Inhabited K] [Inhabited V] (n : Int) (h : 0 < n) :
    New K V n = some (some
      { capacity := n, size := 0, cache := [], head := some 0, tail := some 1,
        heap := [⟨default, default, none, some 1⟩, ⟨default, default, some 0, none⟩] },
      none) := by
  have : ¬ n ≤ 0 := not_le.2 h
  simp [New, this, store]

theorem New_inv [DecidableEq K] [Inhabited K] [Inhabited V] {n : Int} {c : Cache K V} (h : New K V n = some (some c, none)) :
    Inv c [] ∧ c.capacity = n ∧ 0 < n := by
  by_cases hn : n ≤ 0
  · rw [New_nonpos n hn] at h
    simp at h
  · have hpos : 0 < n := not_le.1 hn
    rw [New_pos n hpos] at h
    simp only [Option.some.injEq, Prod.mk.injEq, and_true] at h
    subst h
    refine ⟨⟨rfl, rfl, ⟨by decide, ⟨rfl, rfl⟩, rfl, rfl⟩, ⟨by simp, by simp, by simp⟩, rfl,
      le_of_lt hpos, hpos⟩, rfl, hpos⟩

theorem step_inv [DecidableEq K] [Inhabited V] {c : Cache K V} {as : List Nat} (hI : Inv c as) (op : Op K V) :
    ∃ c' as', step c op = some c' ∧ Inv c' as' ∧ c'.capacity = c.capacity := by
  cases op with
  | get k =>
    cases hg : mapGet c.cache k with
    | none => exact ⟨c, as, by simp [step, Get_miss c k hg], hI, rfl⟩
    | some n =>
      obtain ⟨c', v, e, _, hI', _, _, _, hc⟩ := Get_present hI hg
      exact ⟨c', _, by simp [step, e], hI', hc⟩
  | put k v =>
    cases hg : mapGet c.cache k with
    | none =>
      by_cases hs : c.size < c.capacity
      · obtain ⟨c', e, hI', _, _, _, hc⟩ := Put_absent_room k v hI hg hs
        exact ⟨c', _, by simp [step, e], hI', hc⟩
      · obtain ⟨c', as', t, kt, _, _, e, hI', _, _, _, hc⟩ :=
          Put_absent_full k v hI hg (not_lt.1 hs)
        exact ⟨c', _, by simp [step, e], hI', hc⟩
    | some n =>
      obtain ⟨c', e, hI', _, _, _, hc⟩ := Put_present v hI hg
      exact ⟨c', _, by simp [step, e], hI', hc⟩
  | remove k =>
    cases hg : mapGet c.cache k with
    | none => exact ⟨c, as, by simp [step, Remove_miss c k hg], hI, rfl⟩
    | some n =>
      obtain ⟨c', e, hI', _, _, _, hc⟩ := Remove_present hI hg
      exact ⟨c', _, by simp [step, e], hI', hc⟩

theorem run_inv [DecidableEq K] [Inhabited K] [Inhabited V] {c : Cache K V} {as : List Nat} (hI : Inv c as) (ops : List (Op K V)) :
    ∃ c' as', run c ops = some c' ∧ Inv c' as' ∧ c'.capacity = c.capacity := by
  induction ops generalizing c as with
  | nil => exact ⟨c, as, rfl, hI, rfl⟩
  | cons op ops ih =>
    obtain ⟨c1, as1, e1, hI1, hc1⟩ := step_inv hI op
    obtain ⟨c2, as2, e2, hI2, hc2⟩ := ih hI1
    exact ⟨c2, as2, by simp [run, e1, e2], hI2, hc2.trans hc1⟩

theorem run_append [DecidableEq K] [Inhabited V] (c : Cache K V) (ops1 ops2 : List (Op K V)) :
    run c (ops1 ++ ops2) = (run c ops1).bind (fun c1 => run c1 ops2) := by
  induction ops1 generalizing c with
  | nil => rfl
  | cons op ops ih =>
    simp only [List.cons_append, run]
    cases step c op with
    | none => rfl
    | some c1 => simp [ih]

theorem Reachable.inv [DecidableEq K] [Inhabited K] [Inhabited V] {c : Cache K V} (hr : Reachable c) : ∃ as, Inv c as := by
  obtain ⟨n, c0, ops, h0, hrun⟩ := hr
  obtain ⟨c', as', e, hI, _⟩ := run_inv (New_inv h0).1 ops
  rw [hrun] at e
  cases e
  exact ⟨as', hI⟩

theorem Reachable.of_new [DecidableEq K] [Inhabited K] [Inhabited V] {n : Int} {c : Cache K V} (h : New K V n = some (some c, none)) :
    Reachable c := ⟨n, c, [], h, rfl⟩

theorem Reachable.step [DecidableEq K] [Inhabited K] [Inhabited V] {c c' : Cache K V} (hr : Reachable c) {op : Op K V}
    (h : step c op = some c') : Reachable c' := by
  obtain ⟨n, c0, ops, h0, hrun⟩ := hr
  refine ⟨n, c0, ops ++ [op], h0, ?_⟩
  rw [run_append, hrun]
  simp [run, h]

theorem find?_key_of_mem [DecidableEq K] {l : List (K × V)} {k : K} {v : V} (hn : (l.map Prod.fst).Nodup)
    (hm : (k, v) ∈ l) : l.find? (fun e => decide (e.1 = k)) = some (k, v) := by
  induction l with
  | nil => simp at hm
  | cons e l ih =>
    simp only [List.map_cons, List.nodup_cons] at hn
    rcases List.mem_cons.1 hm with h | h
    · subst h
      simp
    · have : e.1 ≠ k := by
        rintro rfl
        exact hn.1 (List.mem_map.2 ⟨_, h, rfl⟩)
      simp only [List.find?_cons, this, decide_False]
      exact ih hn.2 h

theorem find?_key_of_not_mem [DecidableEq K] {l : List (K × V)} {k : K} (hm : k ∉ l.map Prod.fst) :
    l.find? (fun e => decide (e.1 = k)) = none := by
  rw [List.find?_eq_none]
  intro e he
  simp only [decide_eq_true_eq]
  rintro rfl
  exact hm (List.mem_map.2 ⟨_, he, rfl⟩)

theorem Inv.specFind_some [DecidableEq K] {c : Cache K V} {as : List Nat} (hI : Inv c as) {k : K} {n : Nat}
    {v : V} (hg : mapGet c.cache k = some n) (hv : valOf c.heap n = some v) :
    specFind (entries c) k = some v := by
  have hm : (k, v) ∈ entries c := hI.mem_entries.2 ⟨n, hg, hv⟩
  have hn : ((entries c).map Prod.fst).Nodup := hI.keys_nodup
  simp [specFind, find?_key_of_mem hn hm]

theorem Inv.specFind_none [DecidableEq K] {c : Cache K V} {as : List Nat} (hI : Inv c as) {k : K}
    (hg : mapGet c.cache k = none) : specFind (entries c) k = none := by
  have hm : k ∉ (entries c).map Prod.fst := by
    intro h
    obtain ⟨n, e⟩ := hI.mem_keys.1 h
    rw [hg] at e
    cases e
  simp [specFind, find?_key_of_not_mem hm]

theorem Get_refines [DecidableEq K] [Inhabited V] {c : Cache K V} {as : List Nat} (hI : Inv c as) (k : K) :
    ∃ c' as', Inv c' as' ∧ c'.capacity = c.capacity ∧ c'.size = c.size ∧
      c'.cache = c.cache ∧ entries c' = specGet (entries c) k ∧
      Get c k = some (c',
        match specFind (entries c) k with
        | some v => (v, none)
        | none => (default, some Error.ErrNotFound)) := by
  cases hg : mapGet c.cache k with
  | none =>
    refine ⟨c, as, hI, rfl, rfl, rfl, ?_, ?_⟩
    · simp [specGet, hI.specFind_none hg]
    · simp [hI.specFind_none hg, Get_miss c k hg]
  | some n =>
    obtain ⟨c', v, e, hv, hI', he, h1, h2, h3⟩ := Get_present hI hg
    refine ⟨c', _, hI', h3, h2, h1, ?_, ?_⟩
    · simp only [specGet, hI.specFind_some hg hv, he]
    · simp [hI.specFind_some hg hv, e]

theorem Put_refines [DecidableEq K] {c : Cache K V} {as : List Nat} (hI : Inv c as) (k : K) (v : V) :
    ∃ c' as', Inv c' as' ∧ c'.capacity = c.capacity ∧
      entries c' = specPut c.capacity (entries c) k v ∧ Put c k v = some (c', none) := by
  cases hg : mapGet c.cache k with
  | none =>
    have hm : k ∉ (entries c).map Prod.fst := by
      intro h
      obtain ⟨n, e⟩ := hI.mem_keys.1 h
      rw [hg] at e
      cases e
    have hlen : ((entries c).length : Int) = c.size := by
      rw [hI.length_entries, hI.size_eq]
    by_cases hs : c.size < c.capacity
    · obtain ⟨c', e, hI', he, _, _, hc⟩ := Put_absent_room k v hI hg hs
      refine ⟨c', _, hI', hc, ?_, e⟩
      have : ¬ c.capacity ≤ ((entries c).length : Int) := by rw [hlen]; exact not_le.2 hs
      simp only [specPut, hm, if_false, this, he]
    · obtain ⟨c', as', t, kt, _, _, e, hI', he, _, _, hc⟩ :=
        Put_absent_full k v hI hg (not_lt.1 hs)
      refine ⟨c', _, hI', hc, ?_, e⟩
      have : c.capacity ≤ ((entries c).length : Int) := by rw [hlen]; exact not_lt.1 hs
      simp only [specPut, hm, if_false, this, if_true, he]
  | some n =>
    obtain ⟨c', e, hI', he, _, _, hc⟩ := Put_present v hI hg
    have hm : k ∈ (entries c).map Prod.fst := hI.mem_keys.2 ⟨n, hg⟩
    refine ⟨c', _, hI', hc, ?_, e⟩
    simp only [specPut, hm, if_true, he]

theorem Remove_refines [DecidableEq K] {c : Cache K V} {as : List Nat} (hI : Inv c as) (k : K) :
    ∃ c' as', Inv c' as' ∧ c'.capacity = c.capacity ∧
      entries c' = specRemove (entries c) k ∧
      Remove c k = some (c', decide (k ∈ keys c)) := by
  cases hg : mapGet c.cache k with
  | none =>
    have hm : k ∉ keys c := by
      intro h
      obtain ⟨n, e⟩ := hI.mem_keys.1 h
      rw [hg] at e
      cases e
    refine ⟨c, as, hI, rfl, ?_, by simp [hm, Remove_miss c k hg]⟩
    simp only [specRemove]
    symm
    rw [List.filter_eq_self]
    intro e he
    simp only [decide_eq_true_eq]
    rintro rfl
    exact hm (List.mem_map.2 ⟨_, he, rfl⟩)
  | some n =>
    obtain ⟨c', e, hI', he, _, _, hc⟩ := Remove_present hI hg
    have hm : k ∈ keys c := hI.mem_keys.2 ⟨n, hg⟩
    exact ⟨c', _, hI', hc, he, by simp [hm, e]⟩

theorem step_refines [DecidableEq K] [Inhabited V] {c : Cache K V} {as : List Nat} (hI : Inv c as)
    (op : Op K V) :
    ∃ c' as', Inv c' as' ∧ c'.capacity = c.capacity ∧
      entries c' = specStep c.capacity (entries c) op ∧ step c op = some c' := by
  cases op with
  | get k =>
    obtain ⟨c', as', hI', hc, _, _, he, e⟩ := Get_refines hI k
    exact ⟨c', as', hI', hc, he, by simp [step, e]⟩
  | put k v =>
    obtain ⟨c', as', hI', hc, he, e⟩ := Put_refines hI k v
    exact ⟨c', as', hI', hc, he, by simp [step, e]⟩
  | remove k =>
    obtain ⟨c', as', hI', hc, he, e⟩ := Remove_refines hI k
    exact ⟨c', as', hI', hc, he, by simp [step, e]⟩

theorem run_refines [DecidableEq K] [Inhabited V] {c : Cache K V} {as : List Nat} (hI : Inv c as)
    (ops : List (Op K V)) :
    ∃ c' as', Inv c' as' ∧ c'.capacity = c.capacity ∧
      entries c' = specRun c.capacity (entries c) ops ∧ run c ops = some c' := by
  induction ops generalizing c as with
  | nil => exact ⟨c, as, hI, rfl, rfl, rfl⟩
  | cons op ops ih =>
    obtain ⟨c1, as1, hI1, hc1, he1, e1⟩ := step_refines hI op
    obtain ⟨c2, as2, hI2, hc2, he2, e2⟩ := ih hI1
    refine ⟨c2, as2, hI2, hc2.trans hc1, ?_, by simp [run, e1, e2]⟩
    rw [he2, he1, hc1]
    rfl

theorem specFind_specPut_self [DecidableEq K] (cap : Int) (l : List (K × V)) (k : K) (v : V) :
    specFind (specPut cap l k v) k = some v := by
  unfold specPut specFind
  split_ifs <;> simp

theorem sampleCache_reachable : Reachable sampleCache :=
  ⟨2, _, [.put 1 10, .put 2 20, .get 1, .put 3 30], rfl, rfl⟩

theorem sampleOne_reachable : Reachable sampleOne :=
  ⟨1, _, [.put 7 1], rfl, rfl⟩

theorem specRun_append [DecidableEq K] (cap : Int) (l : List (K × V)) (ops1 ops2 : List (Op K V)) :
    specRun cap l (ops1 ++ ops2) = specRun cap (specRun cap l ops1) ops2 := by
  induction ops1 generalizing l with
  | nil => rfl
  | cons op ops ih => exact ih (specStep cap l op)

theorem specRun_puts_room [DecidableEq K] (cap : Int) :
    ∀ (l acc : List (K × V)), ((l ++ acc).map Prod.fst).Nodup →
      ((acc.length + l.length : Nat) : Int) ≤ cap →
      specRun cap acc (l.map (fun e => Op.put e.1 e.2)) = l.reverse ++ acc
  | [], acc, _, _ => by simp [specRun]
  | e :: l, acc, hn, hc => by
    have hk : e.1 ∉ acc.map Prod.fst := by
      simp only [List.cons_append, List.map_cons, List.nodup_cons, List.map_append,
        List.mem_append, not_or] at hn
      exact hn.1.2
    have hroom : ¬ cap ≤ (acc.length : Int) := by
      simp only [List.length_cons] at hc
      omega
    have hstep : specPut cap acc e.1 e.2 = e :: acc := by
      simp only [specPut, hk, if_false, hroom]
    simp only [List.map_cons, specRun, specStep, hstep]
    rw [specRun_puts_room cap l (e :: acc)]
    · simp
    · have h2 : ((e :: l ++ acc).map Prod.fst).Perm ((l ++ e :: acc).map Prod.fst) :=
        (List.perm_middle.symm).map _
      exact h2.nodup_iff.1 hn
    · simp only [List.length_cons] at hc ⊢
      omega

theorem keys_filter_sublist [DecidableEq K] (l : List (K × V)) (k : K) :
    ((l.filter (fun e => decide (e.1 ≠ k))).map Prod.fst).Sublist (l.map Prod.fst) ∧
      k ∉ (l.filter (fun e => decide (e.1 ≠ k))).map Prod.fst := by
  refine ⟨List.Sublist.map _ (List.filter_sublist _), ?_⟩
  intro h
  obtain ⟨e, he, rfl⟩ := List.mem_map.1 h
  simpa using (List.mem_filter.1 he).2

theorem step_keys [DecidableEq K] [Inhabited V] {c : Cache K V} {as : List Nat} (hI : Inv c as)
    (op : Op K V) :
    ∃ c1 as1, step c op = some c1 ∧ Inv c1 as1 ∧ c1.capacity = c.capacity ∧
      ((∃ k r, keys c1 = k :: r ∧ r.Sublist (keys c) ∧ k ∉ r ∧
          ∀ key, touches c op key = decide (k = key)) ∨
        ((keys c1).Sublist (keys c) ∧ ∀ key, touches c op key = false)) := by
  cases op with
  | get k =>
    cases hg : mapGet c.cache k with
    | none =>
      have e := Get_miss c k hg
      refine ⟨c, as, by simp [step, e], hI, rfl, Or.inr ⟨List.Sublist.refl _, ?_⟩⟩
      intro key
      simp [touches, e]
    | some n =>
      obtain ⟨c', v, e, _, hI', he, _, _, hc⟩ := Get_present hI hg
      refine ⟨c', _, by simp [step, e], hI', hc, Or.inl ⟨k,
        ((entries c).filter (fun e => decide (e.1 ≠ k))).map Prod.fst, ?_, ?_, ?_, ?_⟩⟩
      · simp only [keys, he, List.map_cons]
      · exact (keys_filter_sublist (entries c) k).1
      · exact (keys_filter_sublist (entries c) k).2
      · intro key
        simp [touches, e]
  | put k v =>
    cases hg : mapGet c.cache k with
    | none =>
      have hk : k ∉ keys c := by
        intro h
        obtain ⟨n, e⟩ := hI.mem_keys.1 h
        rw [hg] at e
        cases e
      by_cases hs : c.size < c.capacity
      · obtain ⟨c', e, hI', he, _, _, hc⟩ := Put_absent_room k v hI hg hs
        refine ⟨c', _, by simp [step, e], hI', hc, Or.inl ⟨k, keys c, ?_, List.Sublist.refl _,
          hk, ?_⟩⟩
        · simp only [keys, he, List.map_cons]
        · intro key
          simp [touches, e]
      · obtain ⟨c', as', t, kt, _, _, e, hI', he, _, _, hc⟩ :=
          Put_absent_full k v hI hg (not_lt.1 hs)
        refine ⟨c', _, by simp [step, e], hI', hc, Or.inl ⟨k, (keys c).dropLast, ?_,
          List.dropLast_sublist _, fun h => hk (List.dropLast_subset _ h), ?_⟩⟩
        · simp only [keys, he, List.map_cons, List.map_dropLast]
        · intro key
          simp [touches, e]
    | some n =>
      obtain ⟨c', e, hI', he, _, _, hc⟩ := Put_present v hI hg
      refine ⟨c', _, by simp [step, e], hI', hc, Or.inl ⟨k,
        ((entries c).filter (fun e => decide (e.1 ≠ k))).map Prod.fst, ?_, ?_, ?_, ?_⟩⟩
      · simp only [keys, he, List.map_cons]
      · exact (keys_filter_sublist (entries c) k).1
      · exact (keys_filter_sublist (entries c) k).2
      · intro key
        simp [touches, e]
  | remove k =>
    obtain ⟨c', as', hI', hc, he, e⟩ := Remove_refines hI k
    refine ⟨c', as', by simp [step, e], hI', hc, Or.inr ⟨?_, fun _ => rfl⟩⟩
    simp only [keys, he, specRemove]
    exact (keys_filter_sublist (entries c) k).1

theorem lastUseFrom_sorted [DecidableEq K] [Inhabited V] (ops : List (Op K V)) :
    ∀ {c : Cache K V} {as : List Nat} (t : Nat) (f : K → Nat), Inv c as →
      (keys c).Pairwise (fun a b => f b < f a) → (∀ a ∈ keys c, f a ≤ t) →
      ∃ c' as', run c ops = some c' ∧ Inv c' as' ∧ c'.capacity = c.capacity ∧
        (keys c').Pairwise (fun a b => lastUseFrom c ops t f b < lastUseFrom c ops t f a) := by
  induction ops with
  | nil =>
    intro c as t f hI hs _
    exact ⟨c, as, rfl, hI, rfl, hs⟩
  | cons op ops ih =>
    intro c as t f hI hs hb
    obtain ⟨c1, as1, e1, hI1, hc1, hk⟩ := step_keys hI op
    have hnext : ∃ c' as', run c1 ops = some c' ∧ Inv c' as' ∧ c'.capacity = c1.capacity ∧
        (keys c').Pairwise (fun a b =>
          lastUseFrom c1 ops (t + 1) (fun key => if touches c op key then t + 1 else f key) b <
          lastUseFrom c1 ops (t + 1) (fun key => if touches c op key then t + 1 else f key) a) := by
      apply ih (t + 1) _ hI1
      · rcases hk with ⟨k, r, hkeys, hsub, hkr, htouch⟩ | ⟨hsub, htouch⟩
        · rw [hkeys, List.pairwise_cons]
          have hf : ∀ b ∈ r, (if touches c op b then t + 1 else f b) = f b := by
            intro b hb'
            have : k ≠ b := by
              rintro rfl
              exact hkr hb'
            simp [htouch, this]
          refine ⟨?_, ?_⟩
          · intro b hb'
            rw [hf b hb']
            have := hb b (hsub.subset hb')
            simp only [htouch, decide_True, if_true]
            omega
          · refine (hs.sublist hsub).imp_of_mem ?_
            intro a b ha hb' hab
            rw [hf a ha, hf b hb']
            exact hab
        · refine (hs.sublist hsub).imp_of_mem ?_
          intro a b _ _ hab
          simp only [htouch]
          exact hab
      · intro a ha
        by_cases ht : touches c op a
        · simp [ht]
        · have hmem : a ∈ keys c := by
            rcases hk with ⟨k, r, hkeys, hsub, hkr, htouch⟩ | ⟨hsub, htouch⟩
            · rw [hkeys] at ha
              rcases List.mem_cons.1 ha with rfl | h
              · simp [htouch] at ht
              · exact hsub.subset h
            · exact hsub.subset ha
          have := hb a hmem
          simp only [ht]
          simp only [Bool.false_eq_true, if_false]
          omega
    obtain ⟨c', as', e2, hI2, hc2, hs2⟩ := hnext
    refine ⟨c', as', by simp [run, e1, e2], hI2, hc2.trans hc1, ?_⟩
    simpa only [lastUseFrom, e1] using hs2

theorem sampleRoom_reachable : Reachable sampleRoom :=
  ⟨2, _, [.put 1 10], rfl, rfl⟩

theorem Inv.entry_unique [DecidableEq K] {c : Cache K V} {as : List Nat} (hI : Inv c as) {k : K} {v w : V}
    (hv : (k, v) ∈ entries c) (hw : (k, w) ∈ entries c) : v = w := by
  obtain ⟨n, hg, e1⟩ := hI.mem_entries.1 hv
  obtain ⟨m, hg', e2⟩ := hI.mem_entries.1 hw
  rw [hg] at hg'
  cases hg'
  rw [e1] at e2
  exact Option.some.inj e2

theorem Get_of_mem_entries [DecidableEq K] [Inhabited V] {c : Cache K V} {as : List Nat} (hI : Inv c as)
    {k : K} {v : V} (hm : (k, v) ∈ entries c) :
    ∃ c' n, mapGet c.cache k = some n ∧ Get c k = some (c', v, none) ∧
      Inv c' (n :: as.erase n) ∧
      entries c' = (k, v) :: (entries c).filter (fun e => decide (e.1 ≠ k)) ∧
      c'.cache = c.cache ∧ c'.size = c.size ∧ c'.capacity = c.capacity := by
  obtain ⟨n, hg, hv⟩ := hI.mem_entries.1 hm
  obtain ⟨c', v', e, hv', hI', he, h1, h2, h3⟩ := Get_present hI hg
  have : v' = v := by
    rw [hv] at hv'
    exact (Option.some.inj hv').symm
  subst this
  exact ⟨c', n, hg, e, hI', he, h1, h2, h3⟩

theorem Inv.length_indexKeys {c : Cache K V} {as : List Nat} (hI : Inv c as) :
    (indexKeys c).length = as.length := by
  have := hI.indexed.ptrs.length_eq
  simpa [indexKeys] using this

theorem indexKeys_mapDelete [DecidableEq K] (c : Cache K V) (k : K) :
    (mapDelete c.cache k).map Prod.fst = (indexKeys c).filter (fun x => decide (x ≠ k)) := by
  unfold mapDelete indexKeys
  induction c.cache with
  | nil => rfl
  | cons e m ih =>
    by_cases h : e.1 = k
    · simpa [List.filter_cons, h] using ih
    · simpa [List.filter_cons, h] using ih

theorem Inv.Get_of_entry [DecidableEq K] [Inhabited V] {c : Cache K V} {as : List Nat} (hI : Inv c as)
    {e : K × V} (hm : e ∈ entries c) : ∃ c', Get c e.1 = some (c', e.2, none) := by
  obtain ⟨c', n, _, eg, _⟩ := Get_of_mem_entries hI (k := e.1) (v := e.2) hm
  exact ⟨c', eg⟩

theorem mem_keys_touch [DecidableEq K] {l : List (K × V)} {k : K} (v : V) (hk : k ∈ l.map Prod.fst) (x : K) :
    x ∈ ((k, v) :: l.filter (fun e => decide (e.1 ≠ k))).map Prod.fst ↔ x ∈ l.map Prod.fst := by
  simp only [List.map_cons, List.mem_cons, List.mem_map, List.mem_filter,
    decide_eq_true_eq] at hk ⊢
  constructor
  · rintro (rfl | ⟨a, ⟨ha, _⟩, rfl⟩)
    · exact hk
    · exact ⟨a, ha, rfl⟩
  · rintro ⟨a, ha, rfl⟩
    by_cases h : a.1 = k
    · exact Or.inl h
    · exact Or.inr ⟨a, ⟨ha, h⟩, rfl⟩

theorem Put_keeps_full_size [DecidableEq K] {c : Cache K V} {as : List Nat} (hI : Inv c as) (k : K) (v : V)
    (hfull : c.capacity ≤ c.size) :
    ∃ c', Put c k v = some (c', none) ∧ c'.size = c.size := by
  cases hg : mapGet c.cache k with
  | none =>
    obtain ⟨c', _, _, _, _, _, e, _, _, _, h2, _⟩ := Put_absent_full k v hI hg hfull
    exact ⟨c', e, h2⟩
  | some n =>
    obtain ⟨c', e, _, _, _, h2, _⟩ := Put_present v hI hg
    exact ⟨c', e, h2⟩

theorem puts_keys [DecidableEq K] [Inhabited V] (kvs : List (K × V)) :
    ∀ {c : Cache K V} {as : List Nat} (ks : List K), Inv c as →
      (∀ x ∈ keys c, x ∈ ks) → (c.size < c.capacity → ∀ x ∈ ks, x ∈ keys c) →
      ∃ c' as', run c (kvs.map (fun e => Op.put e.1 e.2)) = some c' ∧ Inv c' as' ∧
        c'.capacity = c.capacity ∧ (∀ x ∈ keys c', x ∈ ks ++ kvs.map Prod.fst) ∧
        (c'.size < c'.capacity → ∀ x ∈ ks ++ kvs.map Prod.fst, x ∈ keys c') := by
  induction kvs with
  | nil =>
    intro c as ks hI h1 h2
    exact ⟨c, as, rfl, hI, rfl, by simpa using h1, by simpa using h2⟩
  | cons e kvs ih =>
    intro c as ks hI h1 h2
    obtain ⟨k, v⟩ := e
    have hstep : ∃ c1 as1, Put c k v = some (c1, none) ∧ Inv c1 as1 ∧
        c1.capacity = c.capacity ∧ (∀ x ∈ keys c1, x ∈ ks ++ [k]) ∧
        (c1.size < c1.capacity → ∀ x ∈ ks ++ [k], x ∈ keys c1) := by
      cases hg : mapGet c.cache k with
      | none =>
        by_cases hs : c.size < c.capacity
        · obtain ⟨c1, e1, hI1, he, _, hsz, hc⟩ := Put_absent_room k v hI hg hs
          have hk1 : keys c1 = k :: keys c := by simp only [keys, he, List.map_cons]
          refine ⟨c1, _, e1, hI1, hc, ?_, ?_⟩
          · intro x hx
            rw [hk1] at hx
            rcases List.mem_cons.1 hx with rfl | hx
            · simp
            · exact List.mem_append_left _ (h1 x hx)
          · intro _ x hx
            rw [hk1]
            rcases List.mem_append.1 hx with hx | hx
            · exact List.mem_cons_of_mem _ (h2 hs x hx)
            · simp only [List.mem_singleton] at hx
              subst hx
              simp
        · obtain ⟨c1, as', t, kt, _, _, e1, hI1, he, _, hsz, hc⟩ :=
            Put_absent_full k v hI hg (not_lt.1 hs)
          have hk1 : keys c1 = k :: (keys c).dropLast := by
            simp only [keys, he, List.map_cons, List.map_dropLast]
          refine ⟨c1, _, e1, hI1, hc, ?_, ?_⟩
          · intro x hx
            rw [hk1] at hx
            rcases List.mem_cons.1 hx with rfl | hx
            · simp
            · exact List.mem_append_left _ (h1 x (List.dropLast_subset _ hx))
          · intro hlt
            rw [hsz, hc] at hlt
            exact absurd hlt hs
      | some n =>
        obtain ⟨c1, e1, hI1, he, _, hsz, hc⟩ := Put_present v hI hg
        have hkin : k ∈ (entries c).map Prod.fst := hI.mem_keys.2 ⟨n, hg⟩
        have hmem : ∀ x, x ∈ keys c1 ↔ x ∈ keys c := by
          intro x
          simp only [keys, he]
          exact mem_keys_touch v hkin x
        refine ⟨c1, _, e1, hI1, hc, ?_, ?_⟩
        · intro x hx
          exact List.mem_append_left _ (h1 x ((hmem x).1 hx))
        · intro hlt x hx
          rw [hsz, hc] at hlt
          rcases List.mem_append.1 hx with hx | hx
          · exact (hmem x).2 (h2 hlt x hx)
          · simp only [List.mem_singleton] at hx
            subst hx
            exact (hmem x).2 hkin
    obtain ⟨c1, as1, e1, hI1, hc1, h1', h2'⟩ := hstep
    obtain ⟨c2, as2, e2, hI2, hc2, h1'', h2''⟩ := ih (ks ++ [k]) hI1 h1' h2'
    refine ⟨c2, as2, ?_, hI2, hc2.trans hc1, ?_, ?_⟩
    · simp [run, step, e1, e2]
    · simpa using h1''
    · simpa using h2''

theorem heap_ext {h h' : List (node K V)}
    (hk : ∀ a, keyOf h' a = keyOf h a) (hv : ∀ a, valOf h' a = valOf h a)
    (hn : ∀ a, nextOf h' a = nextOf h a) (hp : ∀ a, prevOf h' a = prevOf h a) : h' = h := by
  apply List.ext_getElem?
  intro a
  have e1 := hk a
  have e2 := hv a
  have e3 := hn a
  have e4 := hp a
  unfold keyOf at e1
  unfold valOf at e2
  unfold nextOf at e3
  unfold prevOf at e4
  cases hx : h[a]? with
  | none =>
    cases hy : h'[a]? with
    | none => rfl
    | some y => simp [hx, hy] at e1
  | some x =>
    cases hy : h'[a]? with
    | none => simp [hx, hy] at e1
    | some y =>
      simp only [hx, hy, Option.some.injEq] at e1 e2 e3 e4
      cases x
      cases y
      simp_all

theorem Seg.first_prev {h : List (node K V)} {l : List Nat} {x y : Nat} (hs : Seg h x l y) :
    ∃ f ∈ l ++ [y], nextOf h x = some f ∧ prevOf h f = some x := by
  cases l with
  | nil => exact ⟨y, by simp, hs.1, hs.2⟩
  | cons b l => exact ⟨b, by simp, hs.1, hs.2.1⟩

theorem moveToFront_front [DecidableEq K] {c : Cache K V} {n : Nat} {as : List Nat}
    (hh : c.head = some 0) (hl : Linked c.heap (n :: as)) :
    moveToFront c (some n) = some c := by
  have hseg := hl.seg
  obtain ⟨h0n, hn0, hrest⟩ := hseg
  obtain ⟨f, hf, hnf, hfn⟩ := Seg.first_prev hrest
  have hv := hl.addr_valid
  have hnd := hl.nodup
  obtain ⟨pd, hpd⟩ := valid_getElem? (hv 0 (by simp))
  obtain ⟨qd, hqd⟩ := valid_getElem? (hv f (by
    simp only [List.cons_append, List.mem_cons]
    exact Or.inr (Or.inr hf)))
  have hne0 : (0 : Nat) ≠ n := by
    rintro rfl
    simp at hnd
  have hnef : n ≠ f := by
    rintro rfl
    simp only [List.cons_append, List.nodup_cons] at hnd
    exact hnd.2.1 hf
  have hf0 : f ≠ 0 := by
    rintro rfl
    simp only [List.cons_append, List.nodup_cons, List.mem_cons] at hnd
    exact hnd.1 (Or.inr hf)
  obtain ⟨h1, e1, len1, k1, v1, N1, N2, P1, P2⟩ := removeNode_heap c hn0 hnf hpd hqd hne0
  obtain ⟨nd, hnd1⟩ := valid_getElem? (α := node K V) (h := h1) (a := n) (by
    rw [len1]
    exact hv n (by simp))
  obtain ⟨fd, hfd1⟩ := valid_getElem? (α := node K V) (h := h1) (a := f) (by
    rw [len1]
    exact hv f (by
      simp only [List.cons_append, List.mem_cons]
      exact Or.inr (Or.inr hf)))
  obtain ⟨h2, e2, _, k2, v2, M1, M2, M3, Q1, Q2, Q3, _⟩ :=
    addToFront_heap { c with heap := h1 } hh N2 hnd1 hfd1 (Ne.symm hne0) hnef hf0
  have hext : h2 = c.heap := by
    apply heap_ext
    · exact fun a => (k2 a).trans (k1 a)
    · exact fun a => (v2 a).trans (v1 a)
    · intro a
      by_cases a0 : a = 0
      · subst a0
        rw [M1, h0n]
      · by_cases an : a = n
        · subst an
          rw [M2, hnf]
        · rw [M3 a a0 an]
          exact N1 a a0
    · intro a
      by_cases an : a = n
      · subst an
        rw [Q1, hn0]
      · by_cases af : a = f
        · subst af
          rw [Q2, hfn]
        · rw [Q3 a an af]
          exact P1 a af
  simp only [moveToFront, e1, Option.bind_eq_bind, Option.some_bind]
  rw [e2, hext]

theorem Get_front [DecidableEq K] [Inhabited V] {c : Cache K V} {n : Nat} {as : List Nat} {k : K}
    (hI : Inv c (n :: as)) (hg : mapGet c.cache k = some n) :
    ∃ v, Get c k = some (c, v, none) := by
  obtain ⟨nd, _, e, _, _⟩ := valOf_of_valid c.heap (hI.mem_valid (a := n) (by simp))
  refine ⟨nd.value, ?_⟩
  simp only [Get, hg, moveToFront_front hI.head_eq hI.linked, e, Option.bind_eq_bind,
    Option.some_bind]
  simp

theorem run_replicate_fixed [DecidableEq K] [Inhabited V] {c : Cache K V} {op : Op K V}
    (h : step c op = some c) : ∀ j, run c (List.replicate j op) = some c
  | 0 => rfl
  | j + 1 => by
    simp only [List.replicate_succ, run, h, Option.some_bind]
    exact run_replicate_fixed h j

theorem Seg.link {h : List (node K V)} : ∀ {l : List Nat} {x y : Nat}, Seg h x l y →
    ∀ z ∈ x :: l, ∃ w ∈ l ++ [y], nextOf h z = some w ∧ prevOf h w = some z
  | [], x, y, hs, z, hz => by
    simp only [List.mem_singleton] at hz
    subst hz
    exact ⟨y, by simp, hs.1, hs.2⟩
  | b :: l, x, y, hs, z, hz => by
    rcases List.mem_cons.1 hz with rfl | hz
    · exact ⟨b, by simp, hs.1, hs.2.1⟩
    · obtain ⟨w, hw, e⟩ := Seg.link hs.2.2 z hz
      exact ⟨w, List.mem_cons_of_mem _ hw, e⟩

theorem lastUseFrom_bounds [DecidableEq K] [Inhabited V] (lo : Nat) (ops : List (Op K V)) :
    ∀ {c : Cache K V} {as : List Nat} (t : Nat) (f : K → Nat) (c' : Cache K V), Inv c as →
      (∀ a ∈ keys c, lo < f a ∧ f a ≤ t) → lo ≤ t → run c ops = some c' →
      ∀ a ∈ keys c', lo < lastUseFrom c ops t f a ∧
        lastUseFrom c ops t f a ≤ t + ops.length := by
  induction ops with
  | nil =>
    intro c as t f c' _ hb _ hrun a ha
    simp only [run, Option.some.injEq] at hrun
    subst hrun
    simpa [lastUseFrom] using hb a ha
  | cons op ops ih =>
    intro c as t f c' hI hb hlo hrun a ha
    obtain ⟨c1, as1, e1, hI1, _, hk⟩ := step_keys hI op
    simp only [run, e1, Option.some_bind] at hrun
    have hb1 : ∀ x ∈ keys c1,
        lo < (if touches c op x then t + 1 else f x) ∧
          (if touches c op x then t + 1 else f x) ≤ t + 1 := by
      intro x hx
      by_cases ht : touches c op x = true
      · simp only [ht, if_true]
        omega
      · have hmem : x ∈ keys c := by
          rcases hk with ⟨k, r, hkeys, hsub, _, htouch⟩ | ⟨hsub, _⟩
          · rw [hkeys] at hx
            rcases List.mem_cons.1 hx with rfl | h
            · simp [htouch] at ht
            · exact hsub.subset h
          · exact hsub.subset hx
        have := hb x hmem
        simp only [ht]
        simp only [Bool.false_eq_true, if_false]
        omega
    have := ih (t + 1) (fun key => if touches c op key then t + 1 else f key) c' hI1 hb1
      (by omega) hrun a ha
    simp only [lastUseFrom, e1, List.length_cons]
    constructor
    · exact this.1
    · have h2 := this.2
      omega

end Lemmas

/-! ## The claims -/

section Claims

variable {K V : Type}

/-- C1: `New` returns `(nil, ErrInvalidCapacity)` exactly when `capacity ≤ 0`, and it
returns a non-nil cache with a nil error exactly when `capacity ≥ 1`. -/
theorem New_error_iff (K V : Type) [Inhabited K] [Inhabited V] (capacity : Int) :
    (New K V capacity = some (none, some Error.ErrInvalidCapacity) ↔ capacity ≤ 0) ∧
      ((∃ c, New K V capacity = some (some c, none)) ↔ 1 ≤ capacity) := by
  by_cases h : capacity ≤ 0
  · have h1 : ¬ 1 ≤ capacity := by omega
    simp [New_nonpos capacity h, h, h1]
  · have h1 : 0 < capacity := not_le.1 h
    have h2 : 1 ≤ capacity := h1
    simp [New_pos capacity h1, h, h2]

/-- C2: for `n ≥ 1` the cache returned by `New n` is empty: `Len` is `0`, `Cap` is `n`,
the index is empty, the two sentinels are distinct nodes linked directly to each other,
the recency sequence is empty, and `Get` of any key returns the zero value and
`ErrNotFound` without changing the cache. -/
theorem New_empty (K V : Type) [DecidableEq K] [Inhabited K] [Inhabited V] (n : Int)
    (hn : 1 ≤ n) :
    ∃ c, New K V n = some (some c, none) ∧ Len c = 0 ∧ Cap c = n ∧ c.cache = [] ∧
      c.head ≠ none ∧ c.tail ≠ none ∧ c.head ≠ c.tail ∧
      (load c.heap c.head).map node.next = some c.tail ∧
      (load c.heap c.tail).map node.prev = some c.head ∧
      order c = [] ∧ entries c = [] ∧
      ∀ k, Get c k = some (c, default, some Error.ErrNotFound) := by
  refine ⟨_, New_pos n hn, rfl, rfl, rfl, by simp, by simp, by simp, rfl, rfl, rfl, rfl, ?_⟩
  intro k
  exact Get_miss _ k rfl

/-- Witness for C2 at capacity `3`. -/
theorem New_empty_witness :
    (1 : Int) ≤ 3 ∧ ∃ c, New Nat Nat 3 = some (some c, none) ∧ Len c = 0 ∧ Cap c = 3 ∧
      c.cache = [] ∧ c.head ≠ none ∧ c.tail ≠ none ∧ c.head ≠ c.tail ∧
      (load c.heap c.head).map node.next = some c.tail ∧
      (load c.heap c.tail).map node.prev = some c.head ∧
      order c = [] ∧ entries c = [] ∧
      ∀ k, Get c k = some (c, default, some Error.ErrNotFound) :=
  ⟨by decide, New_empty Nat Nat 3 (by decide)⟩

/-- C3: on every reachable cache, `Put k v` returns a nil error and an immediately
following `Get k` returns `v` with a nil error, whether `k` was new or already present
and whether or not the cache was full. -/
theorem Put_then_Get [DecidableEq K] [Inhabited K] [Inhabited V] (c : Cache K V) (hr : Reachable c)
    (k : K) (v : V) :
    ∃ c1 c2, Put c k v = some (c1, none) ∧ Get c1 k = some (c2, v, none) := by
  obtain ⟨as, hI⟩ := hr.inv
  obtain ⟨c1, as1, hI1, _, he, e⟩ := Put_refines hI k v
  obtain ⟨c2, as2, _, _, _, _, _, e2⟩ := Get_refines hI1 k
  rw [he, specFind_specPut_self] at e2
  exact ⟨c1, c2, e, e2⟩

/-- Witness for C3: a new key put into the full sample cache. -/
theorem Put_then_Get_witness :
    Reachable sampleCache ∧
      ∃ c1 c2, Put sampleCache 5 50 = some (c1, none) ∧ Get c1 5 = some (c2, 50, none) :=
  ⟨sampleCache_reachable, Put_then_Get sampleCache sampleCache_reachable 5 50⟩

/-- C4: on every reachable cache, `Get k` returns `ErrNotFound` exactly when `k` is not
in the index, and then it returns the zero value and the cache is left exactly as it
was (index, links, values, size and capacity). -/
theorem Get_miss_noop [DecidableEq K] [Inhabited K] [Inhabited V] (c : Cache K V) (hr : Reachable c)
    (k : K) :
    ((∃ c' v, Get c k = some (c', v, some Error.ErrNotFound)) ↔ k ∉ indexKeys c) ∧
      (k ∉ indexKeys c → Get c k = some (c, default, some Error.ErrNotFound)) := by
  obtain ⟨as, hI⟩ := hr.inv
  cases hg : mapGet c.cache k with
  | none =>
    have hk : k ∉ indexKeys c := hI.not_mem_indexKeys.2 hg
    have e := Get_miss c k hg
    exact ⟨⟨fun _ => hk, fun _ => ⟨c, default, e⟩⟩, fun _ => e⟩
  | some n =>
    have hk : k ∈ indexKeys c := hI.mem_indexKeys.2 ⟨n, hg⟩
    obtain ⟨c', v, e, _⟩ := Get_present hI hg
    refine ⟨⟨?_, fun h => absurd hk h⟩, fun h => absurd hk h⟩
    rintro ⟨c2, v2, e2⟩
    rw [e] at e2
    simp at e2

/-- Witness for C4: key `2` was evicted from the sample cache. -/
theorem Get_miss_noop_witness :
    Reachable sampleCache ∧
      ((∃ c' v, Get sampleCache 2 = some (c', v, some Error.ErrNotFound)) ↔
        2 ∉ indexKeys sampleCache) ∧
      (2 ∉ indexKeys sampleCache →
        Get sampleCache 2 = some (sampleCache, default, some Error.ErrNotFound)) :=
  ⟨sampleCache_reachable, Get_miss_noop sampleCache sampleCache_reachable 2⟩

/-- C5: on every reachable cache (full or not), `Put k v` of a key already present
returns nil, leaves `Len`, `Cap` and the index unchanged, evicts no key, and turns the
recency sequence into `(k, v)` followed by the previous entries other than `k`'s, in
their previous order and with their previous values. -/
theorem Put_update [DecidableEq K] [Inhabited K] [Inhabited V] (c : Cache K V) (hr : Reachable c)
    (k : K) (v : V) (hk : k ∈ indexKeys c) :
    ∃ c', Put c k v = some (c', none) ∧ Len c' = Len c ∧ Cap c' = Cap c ∧
      c'.cache = c.cache ∧
      entries c' = (k, v) :: (entries c).filter (fun e => decide (e.1 ≠ k)) ∧
      ∀ k', k' ∈ keys c' ↔ k' ∈ keys c := by
  obtain ⟨as, hI⟩ := hr.inv
  obtain ⟨n, hg⟩ := hI.mem_indexKeys.1 hk
  obtain ⟨c', e, _, he, h1, h2, h3⟩ := Put_present v hI hg
  refine ⟨c', e, h2, h3, h1, he, ?_⟩
  intro k'
  have hkk : k ∈ keys c := hI.mem_keys.2 ⟨n, hg⟩
  simp only [keys, he, List.map_cons, List.mem_cons, List.mem_map, List.mem_filter,
    decide_eq_true_eq] at hkk ⊢
  constructor
  · rintro (rfl | ⟨a, ⟨ha, _⟩, rfl⟩)
    · exact hkk
    · exact ⟨a, ha, rfl⟩
  · rintro ⟨a, ha, rfl⟩
    by_cases h : a.1 = k
    · exact Or.inl h
    · exact Or.inr ⟨a, ⟨ha, h⟩, rfl⟩

/-- Witness for C5: the capacity-one cache holding key `7`. -/
theorem Put_update_witness :
    Reachable sampleOne ∧ 7 ∈ indexKeys sampleOne ∧
      ∃ c', Put sampleOne 7 9 = some (c', none) ∧ Len c' = Len sampleOne ∧
        Cap c' = Cap sampleOne ∧ c'.cache = sampleOne.cache ∧
        entries c' = (7, 9) :: (entries sampleOne).filter (fun e => decide (e.1 ≠ 7)) ∧
        ∀ k', k' ∈ keys c' ↔ k' ∈ keys sampleOne :=
  ⟨sampleOne_reachable, by decide,
    Put_update sampleOne sampleOne_reachable 7 9 (by decide)⟩

/-- C6: for every `n ≥ 1` and `n + 1` pairwise distinct keys put in order into a fresh
`New n` cache with no `Get` in between, the first key is evicted (`Get` returns the zero
value and `ErrNotFound`) and every other key is present and `Get` returns the value it
was put with. -/
theorem eviction_under_pressure [DecidableEq K] [Inhabited K] [Inhabited V] (n : Nat) (hn : 1 ≤ n)
    (k1 : K) (v1 : V) (rest : List (K × V)) (hlen : rest.length = n)
    (hnd : (k1 :: rest.map Prod.fst).Nodup) :
    ∃ c0 c, New K V n = some (some c0, none) ∧
      run c0 (((k1, v1) :: rest).map (fun e => Op.put e.1 e.2)) = some c ∧
      Get c k1 = some (c, default, some Error.ErrNotFound) ∧
      ∀ e ∈ rest, e.1 ∈ indexKeys c ∧ ∃ c', Get c e.1 = some (c', e.2, none) := by
  have hpos : (0 : Int) < n := by omega
  have hnew := New_pos (K := K) (V := V) (n : Int) hpos
  obtain ⟨hI0, hcap, _⟩ := New_inv hnew
  obtain ⟨c, as, hI, _, he, hrun⟩ :=
    run_refines hI0 (((k1, v1) :: rest).map (fun e => Op.put e.1 e.2))
  have he0 : entries (⟨n, 0, [], some 0, some 1,
      [⟨default, default, none, some 1⟩, ⟨default, default, some 0, none⟩]⟩ : Cache K V) = [] :=
    rfl
  rcases List.eq_nil_or_concat rest with hr | ⟨init, lst, hr⟩
  · subst hr
    simp at hlen
    omega
  rw [List.concat_eq_append] at hr
  subst hr
  have hent : entries c = (init ++ [lst]).reverse := by
    rw [he, he0]
    have hsplit : ((k1, v1) :: (init ++ [lst])).map (fun e => Op.put e.1 e.2) =
        (((k1, v1) :: init).map (fun e => Op.put e.1 e.2)) ++ [Op.put lst.1 lst.2] := by
      simp
    rw [hsplit, specRun_append, specRun_puts_room]
    · have hk : lst.1 ∉ ((((k1, v1) :: init).reverse ++ []).map Prod.fst) := by
        simp only [List.map_append, List.map_cons, List.map_nil, List.nodup_cons,
          List.mem_append, List.mem_singleton, List.nodup_append] at hnd
        simp only [List.append_nil, List.map_reverse, List.mem_reverse, List.map_cons,
          List.mem_cons, not_or]
        refine ⟨fun h => hnd.1 (Or.inr h.symm), fun h => ?_⟩
        exact hnd.2.2.2 h (by simp) 
      have hfull : (n : Int) ≤ ((((k1, v1) :: init).reverse ++ []).length : Int) := by
        simp only [List.length_append, List.length_singleton] at hlen
        simp
        omega
      simp only [specRun, specStep, specPut, hk, if_false, hcap, hfull, if_true]
      simp
    · simp only [List.append_nil]
      simp only [List.map_append, List.map_cons, List.map_nil, List.nodup_cons,
        List.mem_append, List.mem_singleton, List.nodup_append, not_or] at hnd
      simp only [List.map_cons, List.nodup_cons]
      exact ⟨hnd.1.1, hnd.2.1⟩
    · simp only [List.length_append, List.length_singleton] at hlen
      simp only [hcap, List.length_nil, List.length_cons]
      omega
  have hkn : ((entries c).map Prod.fst).Nodup := hI.keys_nodup
  refine ⟨_, c, hnew, hrun, ?_, ?_⟩
  · have hg : mapGet c.cache k1 = none := by
      cases hg : mapGet c.cache k1 with
      | none => rfl
      | some a =>
        exfalso
        have : k1 ∈ keys c := hI.mem_keys.2 ⟨a, hg⟩
        simp only [keys, hent, List.map_reverse, List.mem_reverse] at this
        exact (List.nodup_cons.1 hnd).1 this
    exact Get_miss c k1 hg
  · intro e heM
    have hm : (e.1, e.2) ∈ entries c := by
      rw [hent]
      exact List.mem_reverse.2 heM
    obtain ⟨a, hg, _⟩ := hI.mem_entries.1 hm
    obtain ⟨c', as', _, _, _, _, _, eg⟩ := Get_refines hI e.1
    have hf : specFind (entries c) e.1 = some e.2 := by
      simp [specFind, find?_key_of_mem hkn hm]
    rw [hf] at eg
    exact ⟨hI.mem_indexKeys.2 ⟨a, hg⟩, c', eg⟩

/-- Witness for C6: three distinct keys put into a cache of capacity two. -/
theorem eviction_under_pressure_witness :
    1 ≤ 2 ∧ [((2 : Nat), (20 : Nat)), (3, 30)].length = 2 ∧
      (1 :: [((2 : Nat), (20 : Nat)), (3, 30)].map Prod.fst).Nodup ∧
      ∃ c0 c, New Nat Nat (2 : Nat) = some (some c0, none) ∧
        run c0 (((1, 10) :: [(2, 20), (3, 30)]).map (fun e => Op.put e.1 e.2)) = some c ∧
        Get c 1 = some (c, default, some Error.ErrNotFound) ∧
        ∀ e ∈ [((2 : Nat), (20 : Nat)), (3, 30)],
          e.1 ∈ indexKeys c ∧ ∃ c', Get c e.1 = some (c', e.2, none) :=
  ⟨by decide, rfl, by decide,
    eviction_under_pressure 2 (by decide) 1 10 [(2, 20), (3, 30)] rfl (by decide)⟩

/-- C7: on a fresh `New 2` cache and pairwise distinct keys `a`, `b`, `c`, the calls
`Put a va`, `Put b vb`, `Get a`, `Put c vc` leave `b` evicted (`Get b` returns the zero
value and `ErrNotFound` and changes nothing), while `Get a` returns `va` and `Get c`
returns `vc` with a nil error, one after the other or each on its own. -/
theorem recency_prevents_eviction [DecidableEq K] [Inhabited K] [Inhabited V] (a b c : K) (va vb vc : V)
    (hab : a ≠ b) (hac : a ≠ c) (hbc : b ≠ c) :
    ∃ c0 s, New K V 2 = some (some c0, none) ∧
      run c0 [.put a va, .put b vb, .get a, .put c vc] = some s ∧
      entries s = [(c, vc), (a, va)] ∧
      Get s b = some (s, default, some Error.ErrNotFound) ∧
      (∃ s1 s2, Get s a = some (s1, va, none) ∧ Get s1 c = some (s2, vc, none)) ∧
      ∃ s3, Get s c = some (s3, vc, none) := by
  have hnew := New_pos (K := K) (V := V) 2 (by decide)
  obtain ⟨hI0, hcap, _⟩ := New_inv hnew
  obtain ⟨s, as, hI, _, he, hrun⟩ :=
    run_refines hI0 [Op.put a va, .put b vb, .get a, .put c vc]
  have he0 : entries (⟨2, 0, [], some 0, some 1,
      [⟨default, default, none, some 1⟩, ⟨default, default, some 0, none⟩]⟩ : Cache K V) = [] :=
    rfl
  have hba := Ne.symm hab
  have hca := Ne.symm hac
  have hcb := Ne.symm hbc
  have hent : entries s = [(c, vc), (a, va)] := by
    rw [he, he0]
    simp [specRun, specStep, specPut, specGet, specFind, hab, hac, hbc, hba, hca, hcb]
  refine ⟨_, s, hnew, hrun, hent, ?_, ?_, ?_⟩
  · obtain ⟨s', _, _, _, _, _, he', e⟩ := Get_refines hI b
    have hf : specFind (entries s) b = none := by
      simp [hent, specFind, hcb, hab]
    rw [hf] at e
    have hg : mapGet s.cache b = none := by
      cases hg : mapGet s.cache b with
      | none => rfl
      | some n =>
        exfalso
        have := hI.mem_keys.2 ⟨n, hg⟩
        simp [keys, hent, hbc, hba] at this
    exact Get_miss s b hg
  · obtain ⟨s1, as1, hI1, _, _, _, he1, e1⟩ := Get_refines hI a
    have hf : specFind (entries s) a = some va := by
      simp [hent, specFind, hca]
    rw [hf] at e1
    obtain ⟨s2, _, _, _, _, _, _, e2⟩ := Get_refines hI1 c
    have hf2 : specFind (entries s1) c = some vc := by
      rw [he1]
      simp [hent, specGet, specFind, hca, hac]
    rw [hf2] at e2
    exact ⟨s1, s2, e1, e2⟩
  · obtain ⟨s3, _, _, _, _, _, _, e3⟩ := Get_refines hI c
    have hf : specFind (entries s) c = some vc := by
      simp [hent, specFind]
    rw [hf] at e3
    exact ⟨s3, e3⟩

/-- Witness for C7: the keys of the test `access order affects eviction`. -/
theorem recency_prevents_eviction_witness :
    (1 : Nat) ≠ 2 ∧ (1 : Nat) ≠ 3 ∧ (2 : Nat) ≠ 3 ∧
      ∃ c0 s, New Nat Nat 2 = some (some c0, none) ∧
        run c0 [.put 1 10, .put 2 20, .get 1, .put 3 30] = some s ∧
        entries s = [(3, 30), (1, 10)] ∧
        Get s 2 = some (s, default, some Error.ErrNotFound) ∧
        (∃ s1 s2, Get s 1 = some (s1, 10, none) ∧ Get s1 3 = some (s2, 30, none)) ∧
        ∃ s3, Get s 3 = some (s3, 30, none) :=
  ⟨by decide, by decide, by decide,
    recency_prevents_eviction 1 2 3 10 20 30 (by decide) (by decide) (by decide)⟩

/-- C8: run any sequence of calls on a fresh `New n` cache (`n ≥ 1`). The state reached
holds the entries the reference model computes for that history; its recency sequence
lists exactly the keys of the index, each of them last used successfully by some call
of the history, from head to tail in strictly decreasing order of the call number of
their last successful `Get` or `Put`; and a `Put` of an absent key that finds the cache
full removes exactly one key, the last of the sequence, which is the present key whose
last successful `Get` or `Put` is the earliest in the call history, and keeps every
other key. -/
theorem lru_policy [DecidableEq K] [Inhabited K] [Inhabited V] (n : Int) (hn : 1 ≤ n)
    (ops : List (Op K V)) :
    ∃ c0 c, New K V n = some (some c0, none) ∧ run c0 ops = some c ∧
      entries c = specRun n [] ops ∧
      (indexKeys c).Perm (keys c) ∧
      (∀ x ∈ keys c, 1 ≤ lastUse c0 ops x ∧ lastUse c0 ops x ≤ ops.length) ∧
      (keys c).Pairwise (fun a b => lastUse c0 ops b < lastUse c0 ops a) ∧
      ∀ k v, k ∉ indexKeys c → Cap c ≤ Len c →
        ∃ c' e, Put c k v = some (c', none) ∧ (keys c).getLast? = some e ∧
          e ∈ keys c ∧ e ∉ keys c' ∧ keys c' = k :: (keys c).dropLast ∧
          ∀ k' ∈ keys c, k' ≠ e → k' ∈ keys c' ∧ lastUse c0 ops e < lastUse c0 ops k' := by
  have hnew := New_pos (K := K) (V := V) n hn
  have hk0 : keys (⟨n, 0, [], some 0, some 1,
      [⟨default, default, none, some 1⟩, ⟨default, default, some 0, none⟩]⟩ : Cache K V) = [] :=
    rfl
  have he0 : entries (⟨n, 0, [], some 0, some 1,
      [⟨default, default, none, some 1⟩, ⟨default, default, some 0, none⟩]⟩ : Cache K V) = [] :=
    rfl
  generalize (⟨n, 0, [], some 0, some 1,
      [⟨default, default, none, some 1⟩, ⟨default, default, some 0, none⟩]⟩ : Cache K V) = c0
    at hnew hk0 he0
  obtain ⟨hI0, hcap0, _⟩ := New_inv hnew
  obtain ⟨c, as, hrun, hI, _, hs⟩ :=
    lastUseFrom_sorted ops 0 (fun _ => 0) hI0 (by rw [hk0]; exact List.Pairwise.nil)
      (by rw [hk0]; simp)
  have hmodel : entries c = specRun n [] ops := by
    obtain ⟨c2, _, _, _, he, hrun2⟩ := run_refines hI0 ops
    rw [hrun] at hrun2
    cases hrun2
    rw [he, he0, hcap0]
  have hbounds : ∀ x ∈ keys c, 1 ≤ lastUse c0 ops x ∧ lastUse c0 ops x ≤ ops.length := by
    intro x hx
    have := lastUseFrom_bounds 0 ops 0 (fun _ => 0) c hI0 (by rw [hk0]; simp) (le_refl 0)
      hrun x hx
    simp only [Nat.zero_add] at this
    exact ⟨this.1, this.2⟩
  refine ⟨c0, c, hnew, hrun, hmodel, hI.keys_perm, hbounds, hs, ?_⟩
  intro k v hk hfull
  have hg : mapGet c.cache k = none := hI.not_mem_indexKeys.1 hk
  have hkk : k ∉ keys c := fun h => hk (hI.keys_perm.mem_iff.2 h)
  obtain ⟨c', as', t, kt, has, _, e, hI', he, _, _, _⟩ := Put_absent_full k v hI hg hfull
  have hkeys : keys c' = k :: (keys c).dropLast := by
    simp only [keys, he, List.map_cons, List.map_dropLast]
  have hlen : (keys c).length = as.length := by
    simp only [keys, List.length_map]
    exact hI.length_entries
  rcases List.eq_nil_or_concat (keys c) with h0 | ⟨init, x, hx⟩
  · rw [h0, has] at hlen
    simp at hlen
  rw [List.concat_eq_append] at hx
  have hnd := hI.keys_nodup
  rw [hx] at hnd hs hkk
  rw [hx, List.dropLast_concat] at hkeys
  have hxi : x ∉ init := by
    simp [List.nodup_append] at hnd
    tauto
  refine ⟨c', x, e, by rw [hx]; simp, by rw [hx]; simp, ?_,
    by rw [hx, List.dropLast_concat]; exact hkeys, ?_⟩
  · rw [hkeys]
    simp only [List.mem_cons, not_or]
    refine ⟨?_, hxi⟩
    rintro rfl
    exact hkk (by simp)
  · intro k' hk' hne
    rw [hx] at hk'
    have hin : k' ∈ init := by
      simp only [List.mem_append, List.mem_singleton] at hk'
      tauto
    refine ⟨by rw [hkeys]; exact List.mem_cons_of_mem _ hin, ?_⟩
    rw [List.pairwise_append] at hs
    exact hs.2.2 k' hin x (by simp)

/-- Witness for C8: the history `Put 1`, `Put 2`, `Get 1`, `Put 3` on capacity two ends
in the full state `sampleCache` with keys `3`, `1`, last used by calls `4` and `3`; the
evicted key `2` was last used by call `2`; a further `Put 5` finds the cache full and
evicts key `1`, the present key used the longest ago. -/
theorem lru_policy_witness :
    (1 : Int) ≤ 2 ∧
      ∃ c0 c, New Nat Nat 2 = some (some c0, none) ∧ run c0 sampleHistory = some c ∧
        entries c = specRun 2 [] sampleHistory ∧
        (indexKeys c).Perm (keys c) ∧
        (∀ x ∈ keys c, 1 ≤ lastUse c0 sampleHistory x ∧
          lastUse c0 sampleHistory x ≤ sampleHistory.length) ∧
        (keys c).Pairwise (fun a b => lastUse c0 sampleHistory b < lastUse c0 sampleHistory a) ∧
        (∀ k v, k ∉ indexKeys c → Cap c ≤ Len c →
          ∃ c' e, Put c k v = some (c', none) ∧ (keys c).getLast? = some e ∧
            e ∈ keys c ∧ e ∉ keys c' ∧ keys c' = k :: (keys c).dropLast ∧
            ∀ k' ∈ keys c, k' ≠ e → k' ∈ keys c' ∧
              lastUse c0 sampleHistory e < lastUse c0 sampleHistory k') ∧
        c = sampleCache ∧ entries c = [(3, 30), (1, 10)] ∧ keys c = [3, 1] ∧
        indexKeys c = [3, 1] ∧ Len c = 2 ∧ Cap c = 2 ∧
        lastUse c0 sampleHistory 3 = 4 ∧ lastUse c0 sampleHistory 1 = 3 ∧
        lastUse c0 sampleHistory 2 = 2 ∧
        5 ∉ indexKeys c ∧ Cap c ≤ Len c ∧
        ∃ c' e, Put c 5 50 = some (c', none) ∧ e = 1 ∧ keys c' = [5, 3] ∧
          entries c' = [(5, 50), (3, 30)] ∧ (keys c).getLast? = some e ∧
          e ∈ keys c ∧ e ∉ keys c' ∧
          ∀ k' ∈ keys c, k' ≠ e → k' ∈ keys c' ∧
            lastUse c0 sampleHistory e < lastUse c0 sampleHistory k' := by
  obtain ⟨c0, c, hnew, hrun, hmodel, hperm, hb, hs, hev⟩ :=
    lru_policy (K := Nat) (V := Nat) 2 (by decide) sampleHistory
  have h0 : New Nat Nat 2 = some (some sampleFresh, none) := rfl
  rw [h0] at hnew
  simp only [Option.some.injEq, Prod.mk.injEq, and_true] at hnew
  subst hnew
  have hr : run sampleFresh sampleHistory = some sampleCache := rfl
  rw [hr] at hrun
  simp only [Option.some.injEq] at hrun
  subst hrun
  obtain ⟨c', e, hput, hlast, hin, hnot, hkeys, hrest⟩ := hev 5 50 (by decide) (by decide)
  have he1 : e = 1 := by
    have h : (keys sampleCache).getLast? = some 1 := rfl
    rw [h] at hlast
    exact (Option.some.inj hlast).symm
  have hk' : keys c' = [5, 3] := by
    rw [hkeys]
    rfl
  have hent : entries c' = [(5, 50), (3, 30)] := by
    have h : (Put sampleCache 5 50).map (fun r => entries r.1) = some [(5, 50), (3, 30)] :=
      rfl
    rw [hput] at h
    simpa using h
  exact ⟨by decide, _, _, h0, hr, hmodel, hperm, hb, hs, hev, rfl, rfl, rfl, rfl, rfl, rfl,
    rfl, rfl, rfl, by decide, by decide, c', e, hput, he1, hk', hent, hlast, hin, hnot, hrest⟩

/-- C9: on every reachable cache, `Remove k` of a present key returns true, makes `Len`
exactly one less, removes `k` from the index and from the recency sequence, and a
following `Get k` returns the zero value and `ErrNotFound`. -/
theorem Remove_present_key [DecidableEq K] [Inhabited K] [Inhabited V] (c : Cache K V) (hr : Reachable c)
    (k : K) (hk : k ∈ indexKeys c) :
    ∃ c', Remove c k = some (c', true) ∧ Len c' = Len c - 1 ∧ k ∉ indexKeys c' ∧
      k ∉ keys c' ∧ Get c' k = some (c', default, some Error.ErrNotFound) := by
  obtain ⟨as, hI⟩ := hr.inv
  obtain ⟨n, hg⟩ := hI.mem_indexKeys.1 hk
  obtain ⟨c', e, hI', _, h1, h2, _⟩ := Remove_present hI hg
  have hnk : k ∉ indexKeys c' := by
    unfold indexKeys
    rw [h1]
    exact not_mem_mapDelete_keys c.cache k
  have hg' : mapGet c'.cache k = none := hI'.not_mem_indexKeys.1 hnk
  refine ⟨c', e, h2, hnk, ?_, Get_miss c' k hg'⟩
  intro hmem
  obtain ⟨n', e'⟩ := hI'.mem_keys.1 hmem
  rw [hg'] at e'
  cases e'

/-- Witness for C9: removing key `1` from the sample cache. -/
theorem Remove_present_key_witness :
    Reachable sampleCache ∧ 1 ∈ indexKeys sampleCache ∧
      ∃ c', Remove sampleCache 1 = some (c', true) ∧ Len c' = Len sampleCache - 1 ∧
        1 ∉ indexKeys c' ∧ 1 ∉ keys c' ∧
        Get c' 1 = some (c', default, some Error.ErrNotFound) :=
  ⟨sampleCache_reachable, by decide,
    Remove_present_key sampleCache sampleCache_reachable 1 (by decide)⟩

/-- C10: on every reachable cache, `Remove k` returns false exactly when `k` is not in
the index, and then the cache is left exactly as it was (index, links, values, size and
capacity). -/
theorem Remove_absent_noop [DecidableEq K] [Inhabited K] [Inhabited V] (c : Cache K V) (hr : Reachable c)
    (k : K) :
    ((∃ c', Remove c k = some (c', false)) ↔ k ∉ indexKeys c) ∧
      (k ∉ indexKeys c → Remove c k = some (c, false)) := by
  obtain ⟨as, hI⟩ := hr.inv
  cases hg : mapGet c.cache k with
  | none =>
    have hk : k ∉ indexKeys c := hI.not_mem_indexKeys.2 hg
    have e := Remove_miss c k hg
    exact ⟨⟨fun _ => hk, fun _ => ⟨c, e⟩⟩, fun _ => e⟩
  | some n =>
    have hk : k ∈ indexKeys c := hI.mem_indexKeys.2 ⟨n, hg⟩
    obtain ⟨c', e, _⟩ := Remove_present hI hg
    refine ⟨⟨?_, fun h => absurd hk h⟩, fun h => absurd hk h⟩
    rintro ⟨c2, e2⟩
    rw [e] at e2
    simp at e2

/-- Witness for C10: key `2` is absent from the sample cache. -/
theorem Remove_absent_noop_witness :
    Reachable sampleCache ∧
      ((∃ c', Remove sampleCache 2 = some (c', false)) ↔ 2 ∉ indexKeys sampleCache) ∧
      (2 ∉ indexKeys sampleCache → Remove sampleCache 2 = some (sampleCache, false)) :=
  ⟨sampleCache_reachable, Remove_absent_noop sampleCache sampleCache_reachable 2⟩

/-- C11: in every reachable state `Len` is the number of index entries, the number of
nodes on the recency walk and the number of keys of the recency sequence; those keys
are pairwise distinct and are exactly the keys for which `Get` succeeds; and
`0 ≤ Len ≤ Cap`. -/
theorem Len_invariant [DecidableEq K] [Inhabited K] [Inhabited V] (c : Cache K V) (hr : Reachable c) :
    Len c = (indexKeys c).length ∧ Len c = (order c).length ∧ Len c = (keys c).length ∧
      (indexKeys c).Nodup ∧ (order c).Nodup ∧ (keys c).Nodup ∧
      (∀ k, (∃ c' v, Get c k = some (c', v, none)) ↔ k ∈ keys c) ∧
      0 ≤ Len c ∧ Len c ≤ Cap c := by
  obtain ⟨as, hI⟩ := hr.inv
  have hsz : Len c = as.length := hI.size_eq
  refine ⟨by rw [hsz, hI.length_indexKeys], by rw [hsz, hI.order_eq], ?_, hI.indexed.keys,
    by rw [hI.order_eq]; exact hI.linked.nodup_as, hI.keys_nodup, ?_, ?_, hI.size_le⟩
  · rw [hsz]
    simp only [keys, List.length_map, hI.length_entries]
  · intro k
    cases hg : mapGet c.cache k with
    | none =>
      have e := Get_miss c k hg
      constructor
      · rintro ⟨c', v, e'⟩
        rw [e] at e'
        simp at e'
      · intro hk
        obtain ⟨n, hn⟩ := hI.mem_keys.1 hk
        rw [hg] at hn
        cases hn
    | some n =>
      obtain ⟨c', v, e, _⟩ := Get_present hI hg
      exact ⟨fun _ => hI.mem_keys.2 ⟨n, hg⟩, fun _ => ⟨c', v, e⟩⟩
  · rw [hsz]
    exact Int.natCast_nonneg _

/-- Witness for C11: the full sample cache. -/
theorem Len_invariant_witness :
    Reachable sampleCache ∧
      Len sampleCache = (indexKeys sampleCache).length ∧
      Len sampleCache = (order sampleCache).length ∧
      Len sampleCache = (keys sampleCache).length ∧
      (indexKeys sampleCache).Nodup ∧ (order sampleCache).Nodup ∧ (keys sampleCache).Nodup ∧
      (∀ k, (∃ c' v, Get sampleCache k = some (c', v, none)) ↔ k ∈ keys sampleCache) ∧
      0 ≤ Len sampleCache ∧ Len sampleCache ≤ Cap sampleCache :=
  ⟨sampleCache_reachable, Len_invariant sampleCache sampleCache_reachable⟩

/-- C12: after any sequence of `Put` calls (repeated keys allowed) on a fresh `New n`
cache with `n ≥ 1`, `Len` is the minimum of `n` and the number of distinct keys put;
and once `Len` equals `Cap`, a further `Put` of any key returns nil and leaves `Len`
unchanged. -/
theorem Len_after_puts [DecidableEq K] [Inhabited K] [Inhabited V] (n : Int) (hn : 1 ≤ n)
    (kvs : List (K × V)) :
    ∃ c0 c, New K V n = some (some c0, none) ∧
      run c0 (kvs.map (fun e => Op.put e.1 e.2)) = some c ∧
      Len c = min n ((kvs.map Prod.fst).dedup.length : Int) ∧
      (Len c = Cap c → ∀ k v, ∃ c', Put c k v = some (c', none) ∧ Len c' = Len c) := by
  have hnew := New_pos (K := K) (V := V) n hn
  obtain ⟨hI0, hcap, _⟩ := New_inv hnew
  have hk0 : keys (⟨n, 0, [], some 0, some 1,
      [⟨default, default, none, some 1⟩, ⟨default, default, some 0, none⟩]⟩ : Cache K V) = [] :=
    rfl
  obtain ⟨c, as, hrun, hI, hc, h1, h2⟩ := puts_keys kvs [] hI0
    (by rw [hk0]; simp) (by intro _ x hx; simp at hx)
  simp only [List.nil_append] at h1 h2
  rw [hcap] at hc
  refine ⟨_, c, hnew, hrun, ?_, ?_⟩
  · have hlen : Len c = ((keys c).length : Int) := by
      have : (keys c).length = as.length := by
        simp only [keys, List.length_map]
        exact hI.length_entries
      rw [this]
      exact hI.size_eq
    have hle := hI.size_le
    rw [hc] at hle
    by_cases hs : c.size < c.capacity
    · have hperm : (keys c).Perm (kvs.map Prod.fst).dedup := by
        rw [List.perm_ext_iff_of_nodup hI.keys_nodup (List.nodup_dedup _)]
        intro x
        rw [List.mem_dedup]
        exact ⟨h1 x, h2 hs x⟩
      rw [hc] at hs
      have hs' : Len c < n := hs
      rw [hlen, hperm.length_eq] at hs' ⊢
      exact (min_eq_right (le_of_lt hs')).symm
    · rw [hc] at hs
      have heq : Len c = n := le_antisymm hle (not_lt.1 hs)
      have hsub : (keys c).length ≤ (kvs.map Prod.fst).dedup.length := by
        apply List.Subperm.length_le
        apply List.subperm_of_subset hI.keys_nodup
        intro x hx
        exact List.mem_dedup.2 (h1 x hx)
      have hnd : n ≤ ((kvs.map Prod.fst).dedup.length : Int) := by
        rw [← heq, hlen]
        exact_mod_cast hsub
      rw [heq]
      exact (min_eq_left hnd).symm
  · intro hfull k v
    exact Put_keeps_full_size hI k v (le_of_eq hfull.symm)

/-- Witness for C12: five puts of three distinct keys into a cache of capacity two. -/
theorem Len_after_puts_witness :
    (1 : Int) ≤ 2 ∧
      ∃ c0 c, New Nat Nat 2 = some (some c0, none) ∧
        run c0 ([((1 : Nat), (10 : Nat)), (2, 20), (1, 11), (3, 30), (2, 21)].map
          (fun e => Op.put e.1 e.2)) = some c ∧
        Len c = min 2
          (([((1 : Nat), (10 : Nat)), (2, 20), (1, 11), (3, 30), (2, 21)].map
            Prod.fst).dedup.length : Int) ∧
        (Len c = Cap c → ∀ k v, ∃ c', Put c k v = some (c', none) ∧ Len c' = Len c) :=
  ⟨by decide, Len_after_puts 2 (by decide) [(1, 10), (2, 20), (1, 11), (3, 30), (2, 21)]⟩

/-- C13: on every reachable cache, `Get k` of a key present with value `v` returns `v`
with a nil error; afterwards the recency sequence is `(k, v)` followed by the previous
entries other than `k`'s in their previous order, and `Len`, `Cap`, the index and the
value stored for every key are unchanged. -/
theorem Get_success [DecidableEq K] [Inhabited K] [Inhabited V] (c : Cache K V) (hr : Reachable c)
    (k : K) (v : V) (hkv : (k, v) ∈ entries c) :
    ∃ c', Get c k = some (c', v, none) ∧
      entries c' = (k, v) :: (entries c).filter (fun e => decide (e.1 ≠ k)) ∧
      keys c' = k :: (keys c).erase k ∧
      Len c' = Len c ∧ Cap c' = Cap c ∧ c'.cache = c.cache ∧
      ∀ e, e ∈ entries c' ↔ e ∈ entries c := by
  obtain ⟨as, hI⟩ := hr.inv
  obtain ⟨c', n, _, e, _, he, h1, h2, h3⟩ := Get_of_mem_entries hI hkv
  refine ⟨c', e, he, ?_, h2, h3, h1, ?_⟩
  · simp only [keys, he, List.map_cons]
    congr 1
    have hnd : ((entries c).map Prod.fst).Nodup := hI.keys_nodup
    rw [hnd.erase_eq_filter]
    generalize entries c = l
    induction l with
    | nil => rfl
    | cons x l ih =>
      by_cases h : x.1 = k
      · simpa [List.filter_cons, h] using ih
      · simpa [List.filter_cons, h] using ih
  · intro x
    rw [he]
    simp only [List.mem_cons, List.mem_filter, decide_eq_true_eq]
    constructor
    · rintro (rfl | ⟨hx, _⟩)
      · exact hkv
      · exact hx
    · intro hx
      by_cases h : x.1 = k
      · left
        obtain ⟨xk, xv⟩ := x
        simp only at h
        subst h
        rw [hI.entry_unique hx hkv]
      · exact Or.inr ⟨hx, h⟩

/-- Witness for C13: key `1`, the older of the two keys of the sample cache. -/
theorem Get_success_witness :
    Reachable sampleCache ∧ (1, 10) ∈ entries sampleCache ∧
      ∃ c', Get sampleCache 1 = some (c', 10, none) ∧
        entries c' = (1, 10) :: (entries sampleCache).filter (fun e => decide (e.1 ≠ 1)) ∧
        keys c' = 1 :: (keys sampleCache).erase 1 ∧
        Len c' = Len sampleCache ∧ Cap c' = Cap sampleCache ∧
        c'.cache = sampleCache.cache ∧
        ∀ e, e ∈ entries c' ↔ e ∈ entries sampleCache :=
  ⟨sampleCache_reachable, by decide,
    Get_success sampleCache sampleCache_reachable 1 10 (by decide)⟩

/-- C14: on every reachable cache, for a present key `k` and `m ≥ 1`, each of `m`
consecutive `Get k` calls returns the same value with a nil error, and the state after
each of them is the state after the first: a second `Get` of the same key changes
nothing. -/
theorem Get_idempotent [DecidableEq K] [Inhabited K] [Inhabited V] (c : Cache K V) (hr : Reachable c)
    (k : K) (hk : k ∈ indexKeys c) (m : Nat) (hm : 1 ≤ m) :
    ∃ c1 v, Get c k = some (c1, v, none) ∧ Get c1 k = some (c1, v, none) ∧
      run c (List.replicate m (Op.get k)) = some c1 ∧
      ∀ j, j < m → ∃ s, run c (List.replicate j (Op.get k)) = some s ∧
        Get s k = some (c1, v, none) := by
  obtain ⟨as, hI⟩ := hr.inv
  obtain ⟨n, hg⟩ := hI.mem_indexKeys.1 hk
  obtain ⟨c1, v, e, _, hI1, he, hc, _, _⟩ := Get_present hI hg
  have hg1 : mapGet c1.cache k = some n := by rw [hc]; exact hg
  obtain ⟨w, e1⟩ := Get_front hI1 hg1
  have hvw : w = v := by
    have hm1 : (k, v) ∈ entries c1 := by
      rw [he]
      simp
    obtain ⟨c3, _, _, e3, _⟩ := Get_of_mem_entries hI1 hm1
    rw [e1] at e3
    cases e3
    rfl
  subst hvw
  have hstep1 : step c1 (Op.get k) = some c1 := by simp [step, e1]
  have hrun : ∀ j, run c (List.replicate (j + 1) (Op.get k)) = some c1 := by
    intro j
    simp only [List.replicate_succ, run, step, e, Option.map_some', Option.some_bind]
    exact run_replicate_fixed hstep1 j
  refine ⟨c1, w, e, e1, ?_, ?_⟩
  · obtain ⟨j, rfl⟩ : ∃ j, m = j + 1 := ⟨m - 1, by omega⟩
    exact hrun j
  · intro j _
    cases j with
    | zero => exact ⟨c, rfl, e⟩
    | succ j => exact ⟨c1, hrun j, e1⟩

/-- Witness for C14: three reads of key `1` of the sample cache. -/
theorem Get_idempotent_witness :
    Reachable sampleCache ∧ 1 ∈ indexKeys sampleCache ∧ 1 ≤ 3 ∧
      ∃ c1 v, Get sampleCache 1 = some (c1, v, none) ∧ Get c1 1 = some (c1, v, none) ∧
        run sampleCache (List.replicate 3 (Op.get 1)) = some c1 ∧
        ∀ j, j < 3 → ∃ s, run sampleCache (List.replicate j (Op.get 1)) = some s ∧
          Get s 1 = some (c1, v, none) :=
  ⟨sampleCache_reachable, by decide, by decide,
    Get_idempotent sampleCache sampleCache_reachable 1 (by decide) 3 (by decide)⟩

/-- C15: on every reachable cache with `size == capacity`, `Put k v` of an absent key
returns nil, removes exactly the entry at the tail of the recency sequence from the
sequence and from the index, inserts `(k, v)` at the head and in the index, and leaves
`Len`, `Cap` and every other entry (value and relative order) unchanged. -/
theorem Put_new_full [DecidableEq K] [Inhabited K] [Inhabited V] (c : Cache K V) (hr : Reachable c)
    (k : K) (v : V) (hs : Len c = Cap c) (hk : k ∉ indexKeys c) :
    ∃ c' e, Put c k v = some (c', none) ∧ (entries c).getLast? = some e ∧
      entries c' = (k, v) :: (entries c).dropLast ∧
      indexKeys c' = k :: (indexKeys c).filter (fun x => decide (x ≠ e.1)) ∧
      e.1 ∈ indexKeys c ∧ e.1 ∉ indexKeys c' ∧ e.1 ∉ keys c' ∧
      (∀ x ∈ entries c, x ≠ e → x ∈ entries c' ∧ ∃ c2, Get c' x.1 = some (c2, x.2, none)) ∧
      Len c' = Len c ∧ Cap c' = Cap c := by
  obtain ⟨as, hI⟩ := hr.inv
  have hg : mapGet c.cache k = none := hI.not_mem_indexKeys.1 hk
  have hfull : c.capacity ≤ c.size := le_of_eq hs.symm
  obtain ⟨c', as', t, kt, has, hkt, e, hI', he, hc, h2, h3⟩ := Put_absent_full k v hI hg hfull
  subst has
  obtain ⟨k0, vt, e0⟩ := dataOf_valid (K := K) (V := V) (hI.mem_valid (a := t) (by simp))
  have hk0 : k0 = kt := by
    have := (dataOf_eq_some.1 e0).1
    rw [hkt] at this
    exact (Option.some.inj this).symm
  subst hk0
  have hent : entries c = as'.filterMap (dataOf c.heap) ++ [(k0, vt)] := by
    rw [hI.entries_eq, List.filterMap_append]
    simp [List.filterMap_cons, e0]
  have hmem : (k0, vt) ∈ entries c := by rw [hent]; simp
  have hkin : k0 ∈ indexKeys c := hI.keys_perm.mem_iff.2 (List.mem_map.2 ⟨_, hmem, rfl⟩)
  have hne : k ≠ k0 := by
    rintro rfl
    exact hk hkin
  have hidx : indexKeys c' = k :: (indexKeys c).filter (fun x => decide (x ≠ k0)) := by
    have hnk : k ∉ (mapDelete c.cache k0).map Prod.fst :=
      fun h => hk ((mapDelete_keys_sublist c.cache k0).subset h)
    simp only [indexKeys, hc, mapSet, mapDelete_of_not_mem hnk, List.map_cons]
    rw [indexKeys_mapDelete]
    rfl
  have hnot : k0 ∉ indexKeys c' := by
    rw [hidx]
    simp [Ne.symm hne]
  refine ⟨c', (k0, vt), e, by rw [hent]; simp, he, hidx, hkin, hnot,
    fun h => hnot (hI'.keys_perm.mem_iff.2 h), ?_, h2, h3⟩
  intro x hx hxe
  have hx' : x ∈ entries c' := by
    rw [he, hent, List.dropLast_concat]
    rw [hent] at hx
    simp only [List.mem_append, List.mem_singleton] at hx
    rcases hx with h | h
    · exact List.mem_cons_of_mem _ h
    · exact absurd h hxe
  exact ⟨hx', hI'.Get_of_entry hx'⟩

/-- Witness for C15: key `5` put into the full sample cache evicts key `1`. -/
theorem Put_new_full_witness :
    Reachable sampleCache ∧ Len sampleCache = Cap sampleCache ∧ 5 ∉ indexKeys sampleCache ∧
      ∃ c' e, Put sampleCache 5 50 = some (c', none) ∧
        (entries sampleCache).getLast? = some e ∧
        entries c' = (5, 50) :: (entries sampleCache).dropLast ∧
        indexKeys c' = 5 :: (indexKeys sampleCache).filter (fun x => decide (x ≠ e.1)) ∧
        e.1 ∈ indexKeys sampleCache ∧ e.1 ∉ indexKeys c' ∧ e.1 ∉ keys c' ∧
        (∀ x ∈ entries sampleCache, x ≠ e →
          x ∈ entries c' ∧ ∃ c2, Get c' x.1 = some (c2, x.2, none)) ∧
        Len c' = Len sampleCache ∧ Cap c' = Cap sampleCache :=
  ⟨sampleCache_reachable, by decide, by decide,
    Put_new_full sampleCache sampleCache_reachable 5 50 (by decide) (by decide)⟩

/-- C16: on every reachable cache with `size < capacity`, `Put k v` of an absent key
returns nil, increases `Len` by exactly one, removes nothing, places `(k, v)` at the
head of the recency sequence and in the index, and leaves every previous entry in its
previous order, retrievable with its previous value. -/
theorem Put_new_room [DecidableEq K] [Inhabited K] [Inhabited V] (c : Cache K V) (hr : Reachable c)
    (k : K) (v : V) (hs : Len c < Cap c) (hk : k ∉ indexKeys c) :
    ∃ c', Put c k v = some (c', none) ∧ Len c' = Len c + 1 ∧ Cap c' = Cap c ∧
      entries c' = (k, v) :: entries c ∧ indexKeys c' = k :: indexKeys c ∧
      ∀ x ∈ entries c, ∃ c2, Get c' x.1 = some (c2, x.2, none) := by
  obtain ⟨as, hI⟩ := hr.inv
  have hg : mapGet c.cache k = none := hI.not_mem_indexKeys.1 hk
  obtain ⟨c', e, hI', he, hc, h2, h3⟩ := Put_absent_room k v hI hg hs
  refine ⟨c', e, h2, h3, he, ?_, ?_⟩
  · have hk' : k ∉ c.cache.map Prod.fst := hk
    simp only [indexKeys, hc, mapSet, mapDelete_of_not_mem hk', List.map_cons]
  · intro x hx
    exact hI'.Get_of_entry (by rw [he]; exact List.mem_cons_of_mem _ hx)

/-- Witness for C16: key `2` put into the sample cache that has room. -/
theorem Put_new_room_witness :
    Reachable sampleRoom ∧ Len sampleRoom < Cap sampleRoom ∧ 2 ∉ indexKeys sampleRoom ∧
      ∃ c', Put sampleRoom 2 20 = some (c', none) ∧ Len c' = Len sampleRoom + 1 ∧
        Cap c' = Cap sampleRoom ∧ entries c' = (2, 20) :: entries sampleRoom ∧
        indexKeys c' = 2 :: indexKeys sampleRoom ∧
        ∀ x ∈ entries sampleRoom, ∃ c2, Get c' x.1 = some (c2, x.2, none) :=
  ⟨sampleRoom_reachable, by decide, by decide,
    Put_new_room sampleRoom sampleRoom_reachable 2 20 (by decide) (by decide)⟩

/-- C17: in every reachable state, (i) the `next` links lead from the front sentinel
through the nodes of the recency walk, each met exactly once, to the back sentinel, and
every node `x` on the way other than the back sentinel satisfies `x.next.prev == x`;
(ii) the keys on the walk are pairwise distinct, one per node, and are exactly the keys
of the index; (iii) the index maps each key to the node on the walk that carries that
key, and no index entry points to a sentinel. -/
theorem structural_invariant [DecidableEq K] [Inhabited K] [Inhabited V] (c : Cache K V)
    (hr : Reachable c) :
    c.head = some 0 ∧ c.tail = some 1 ∧
      Seg c.heap 0 (order c) 1 ∧ (0 :: (order c ++ [1])).Nodup ∧
      (∀ x ∈ 0 :: order c, ∃ y ∈ order c ++ [1],
        nextOf c.heap x = some y ∧ prevOf c.heap y = some x) ∧
      keys c = (order c).filterMap (keyOf c.heap) ∧ (keys c).length = (order c).length ∧
      (keys c).Nodup ∧ (indexKeys c).Nodup ∧ (indexKeys c).Perm (keys c) ∧
      (∀ k p, (k, p) ∈ c.cache →
        ∃ a ∈ order c, p = some a ∧ keyOf c.heap a = some k ∧ mapGet c.cache k = some a) ∧
      (∀ a ∈ order c, ∃ k, keyOf c.heap a = some k ∧ mapGet c.cache k = some a) ∧
      ∀ k p, (k, p) ∈ c.cache → p ≠ c.head ∧ p ≠ c.tail := by
  obtain ⟨as, hI⟩ := hr.inv
  have ho := hI.order_eq
  rw [ho]
  have hidx : ∀ k p, (k, p) ∈ c.cache →
      ∃ a ∈ as, p = some a ∧ keyOf c.heap a = some k ∧ mapGet c.cache k = some a := by
    intro k p hm
    obtain ⟨a, ha, rfl⟩ := hI.indexed.ptr_mem hm
    exact ⟨a, ha, rfl, hI.indexed.key k a hm, mapGet_of_mem hI.indexed.keys hm⟩
  refine ⟨hI.head_eq, hI.tail_eq, hI.linked.seg, hI.linked.nodup, Seg.link hI.linked.seg,
    ?_, ?_, hI.keys_nodup, hI.indexed.keys, hI.keys_perm, hidx, ?_, ?_⟩
  · simp only [keys, hI.entries_eq, List.map_filterMap]
    apply List.filterMap_congr
    intro a _
    simp only [dataOf, keyOf]
    cases c.heap[a]? <;> rfl
  · simp only [keys, List.length_map]
    exact hI.length_entries
  · intro a ha
    obtain ⟨k, hm, hk⟩ := hI.indexed.mem_index ha
    exact ⟨k, hk, mapGet_of_mem hI.indexed.keys hm⟩
  · intro k p hm
    obtain ⟨a, ha, rfl, _⟩ := hidx k p hm
    rw [hI.head_eq, hI.tail_eq]
    constructor
    · intro e
      cases e
      exact hI.linked.zero_not_mem ha
    · intro e
      cases e
      exact hI.linked.one_not_mem ha

/-- Witness for C17: the full sample cache. -/
theorem structural_invariant_witness :
    Reachable sampleCache ∧
      sampleCache.head = some 0 ∧ sampleCache.tail = some 1 ∧
      Seg sampleCache.heap 0 (order sampleCache) 1 ∧
      (0 :: (order sampleCache ++ [1])).Nodup ∧
      (∀ x ∈ 0 :: order sampleCache, ∃ y ∈ order sampleCache ++ [1],
        nextOf sampleCache.heap x = some y ∧ prevOf sampleCache.heap y = some x) ∧
      keys sampleCache = (order sampleCache).filterMap (keyOf sampleCache.heap) ∧
      (keys sampleCache).length = (order sampleCache).length ∧
      (keys sampleCache).Nodup ∧ (indexKeys sampleCache).Nodup ∧
      (indexKeys sampleCache).Perm (keys sampleCache) ∧
      (∀ k p, (k, p) ∈ sampleCache.cache →
        ∃ a ∈ order sampleCache, p = some a ∧ keyOf sampleCache.heap a = some k ∧
          mapGet sampleCache.cache k = some a) ∧
      (∀ a ∈ order sampleCache, ∃ k, keyOf sampleCache.heap a = some k ∧
        mapGet sampleCache.cache k = some a) ∧
      ∀ k p, (k, p) ∈ sampleCache.cache → p ≠ sampleCache.head ∧ p ≠ sampleCache.tail :=
  ⟨sampleCache_reachable, structural_invariant sampleCache sampleCache_reachable⟩

/-- C18: in every reachable state `Put` returns a nil error for every key and value;
the test `size >= capacity` holds exactly when `size == capacity`; and when it holds,
`c.tail.prev` is a node of the recency walk, not the front sentinel (whose `prev` is
nil): its own `prev` and `next` are non-nil, its key is a key of the index, and
`removeTail` returns it without panicking. -/
theorem Put_no_failure [DecidableEq K] [Inhabited K] [Inhabited V] (c : Cache K V) (hr : Reachable c) :
    (∀ k v, ∃ c', Put c k v = some (c', none)) ∧
      (c.capacity ≤ c.size ↔ c.size = c.capacity) ∧
      (load c.heap c.head).map node.prev = some none ∧
      (c.capacity ≤ c.size →
        ∃ tl t td p c1, load c.heap c.tail = some tl ∧ tl.prev = some t ∧
          some t ≠ c.head ∧ t ∈ order c ∧ (order c).getLast? = some t ∧
          load c.heap (some t) = some td ∧
          td.prev = some p ∧ (load c.heap (some p)).isSome ∧ td.next = c.tail ∧
          td.key ∈ indexKeys c ∧ removeTail c = some (c1, some t)) := by
  obtain ⟨as, hI⟩ := hr.inv
  refine ⟨?_, ?_, ?_, ?_⟩
  · intro k v
    obtain ⟨c', _, _, _, _, e⟩ := Put_refines hI k v
    exact ⟨c', e⟩
  · have := hI.size_le
    constructor
    · intro h
      exact le_antisymm this h
    · intro h
      exact le_of_eq h.symm
  · obtain ⟨hd, e1, _, _, _⟩ := valOf_of_valid c.heap (hI.linked.addr_valid 0 (by simp))
    have hp := hI.linked.head_prev
    simp only [prevOf, e1] at hp
    simp only [load, hI.head_eq, e1, Option.map_some', hp]
  · intro hfull
    have hpos : 0 < as.length := by
      have h1 := hI.size_eq
      have h2 := hI.cap_pos
      omega
    rcases List.eq_nil_or_concat as with h0 | ⟨as', t, hcat⟩
    · rw [h0] at hpos
      simp at hpos
    rw [List.concat_eq_append] at hcat
    subst hcat
    have ht : t ∈ as' ++ [t] := by simp
    have hseg : Seg c.heap t [] 1 := Seg.suffix hI.linked.seg
    obtain ⟨tl, htl, htlp⟩ := prevOf_eq_some hseg.2
    obtain ⟨td, htd, htdn⟩ := nextOf_eq_some hseg.1
    obtain ⟨p, hp, hprev⟩ := Seg.prev_mem hI.linked.seg
    obtain ⟨td', htd', htdp⟩ := prevOf_eq_some hprev
    rw [htd] at htd'
    cases htd'
    obtain ⟨pd, hpd⟩ := valid_getElem? (hI.linked.addr_valid p (by
      simp only [List.mem_cons] at hp ⊢
      rcases hp with h | h
      · exact Or.inl h
      · exact Or.inr (List.mem_append_left _ (List.mem_append_left _ h))))
    obtain ⟨h1, e1, _, _⟩ := removeNode_linked c hI.linked ht
    obtain ⟨kt, hm, hkt⟩ := hI.indexed.mem_index ht
    have hkey : td.key = kt := by
      simp only [keyOf, htd, Option.some.injEq] at hkt
      exact hkt
    have hlt : load c.heap c.tail = some tl := by
      rw [hI.tail_eq]
      exact htl
    refine ⟨tl, t, td, p, { c with heap := h1 }, hlt, htlp, ?_, by rw [hI.order_eq]; exact ht,
      by rw [hI.order_eq]; simp, htd, htdp, by simp [load, hpd], by rw [hI.tail_eq]; exact htdn,
      ?_, ?_⟩
    · rw [hI.head_eq]
      intro e
      cases e
      exact hI.linked.zero_not_mem ht
    · rw [hkey]
      exact List.mem_map.2 ⟨_, hm, rfl⟩
    · simp only [removeTail, hlt, htlp, e1, Option.bind_eq_bind, Option.some_bind]

/-- Witness for C18: the full sample cache. -/
theorem Put_no_failure_witness :
    Reachable sampleCache ∧
      (∀ k v, ∃ c', Put sampleCache k v = some (c', none)) ∧
      (sampleCache.capacity ≤ sampleCache.size ↔ sampleCache.size = sampleCache.capacity) ∧
      (load sampleCache.heap sampleCache.head).map node.prev = some none ∧
      (sampleCache.capacity ≤ sampleCache.size →
        ∃ tl t td p c1, load sampleCache.heap sampleCache.tail = some tl ∧
          tl.prev = some t ∧ some t ≠ sampleCache.head ∧ t ∈ order sampleCache ∧
          (order sampleCache).getLast? = some t ∧
          load sampleCache.heap (some t) = some td ∧
          td.prev = some p ∧ (load sampleCache.heap (some p)).isSome ∧
          td.next = sampleCache.tail ∧
          td.key ∈ indexKeys sampleCache ∧ removeTail sampleCache = some (c1, some t)) :=
  ⟨sampleCache_reachable, Put_no_failure sampleCache sampleCache_reachable⟩

/-- C19: on every reachable cache, `Remove k` of a present key deletes `k`'s entry from
the recency sequence and from the index and touches nothing else: the other entries
keep their relative order and values and stay retrievable, and `Cap` is unchanged. -/
theorem Remove_frame [DecidableEq K] [Inhabited K] [Inhabited V] (c : Cache K V) (hr : Reachable c)
    (k : K) (hk : k ∈ indexKeys c) :
    ∃ c', Remove c k = some (c', true) ∧
      entries c' = (entries c).filter (fun e => decide (e.1 ≠ k)) ∧
      indexKeys c' = (indexKeys c).filter (fun x => decide (x ≠ k)) ∧
      Cap c' = Cap c ∧
      ∀ x ∈ entries c, x.1 ≠ k →
        x ∈ entries c' ∧ ∃ c2, Get c' x.1 = some (c2, x.2, none) := by
  obtain ⟨as, hI⟩ := hr.inv
  obtain ⟨n, hg⟩ := hI.mem_indexKeys.1 hk
  obtain ⟨c', e, hI', he, hc, _, h3⟩ := Remove_present hI hg
  refine ⟨c', e, he, ?_, h3, ?_⟩
  · simp only [indexKeys, hc]
    exact indexKeys_mapDelete c k
  · intro x hx hne
    have hx' : x ∈ entries c' := by
      rw [he]
      exact List.mem_filter.2 ⟨hx, by simpa using hne⟩
    exact ⟨hx', hI'.Get_of_entry hx'⟩

/-- Witness for C19: removing key `3`, the head of the sample cache. -/
theorem Remove_frame_witness :
    Reachable sampleCache ∧ 3 ∈ indexKeys sampleCache ∧
      ∃ c', Remove sampleCache 3 = some (c', true) ∧
        entries c' = (entries sampleCache).filter (fun e => decide (e.1 ≠ 3)) ∧
        indexKeys c' = (indexKeys sampleCache).filter (fun x => decide (x ≠ 3)) ∧
        Cap c' = Cap sampleCache ∧
        ∀ x ∈ entries sampleCache, x.1 ≠ 3 →
          x ∈ entries c' ∧ ∃ c2, Get c' x.1 = some (c2, x.2, none) :=
  ⟨sampleCache_reachable, by decide,
    Remove_frame sampleCache sampleCache_reachable 3 (by decide)⟩

/-- C20: on every reachable cache with `size < capacity`, `Put k v` of an absent key
followed by `Remove k` returns true and restores the observable state: the same
entries in the same recency order with the same values, the same walk, the same index,
`Len` and `Cap`. On a full cache this fails: on the sample cache the pair of calls with
key `5` loses the evicted tail entry. -/
theorem Put_Remove_roundtrip [DecidableEq K] [Inhabited K] [Inhabited V] (c : Cache K V)
    (hr : Reachable c) (k : K) (v : V) (hs : Len c < Cap c) (hk : k ∉ indexKeys c) :
    (∃ c1 c2, Put c k v = some (c1, none) ∧ Remove c1 k = some (c2, true) ∧
        entries c2 = entries c ∧ order c2 = order c ∧ c2.cache = c.cache ∧
        Len c2 = Len c ∧ Cap c2 = Cap c) ∧
      ∃ (d : Cache Nat Nat) (x y : Nat) (d1 d2 : Cache Nat Nat),
        Reachable d ∧ Len d = Cap d ∧ x ∉ indexKeys d ∧
        Put d x y = some (d1, none) ∧ Remove d1 x = some (d2, true) ∧
        entries d2 ≠ entries d ∧ Len d2 ≠ Len d := by
  constructor
  · obtain ⟨as, hI⟩ := hr.inv
    have hg : mapGet c.cache k = none := hI.not_mem_indexKeys.1 hk
    have hk' : k ∉ c.cache.map Prod.fst := hk
    obtain ⟨c1, e1, hI1, he1, hc1, hs1, hcap1⟩ := Put_absent_room k v hI hg hs
    have hg1 : mapGet c1.cache k = some c.heap.length := by
      rw [hc1, mapGet_mapSet]
      simp
    obtain ⟨c2, e2, hI2, he2, hc2, hs2, hcap2⟩ := Remove_present hI1 hg1
    have hkk : k ∉ (entries c).map Prod.fst := by
      intro h
      obtain ⟨n, hn⟩ := hI.mem_keys.1 h
      rw [hg] at hn
      cases hn
    refine ⟨c1, c2, e1, e2, ?_, ?_, ?_, ?_, hcap2.trans hcap1⟩
    · rw [he2, he1]
      have hfil : (entries c).filter (fun e => decide (e.1 ≠ k)) = entries c := by
        rw [List.filter_eq_self]
        intro e he
        simp only [decide_eq_true_eq]
        rintro rfl
        exact hkk (List.mem_map.2 ⟨e, he, rfl⟩)
      rw [List.filter_cons_of_neg (by simp), hfil]
    · rw [hI2.order_eq, hI.order_eq]
      simp
    · rw [hc2, hc1]
      have h1 : mapDelete (mapSet c.cache k (some c.heap.length)) k = mapDelete c.cache k := by
        simp [mapSet, mapDelete, List.filter_cons, List.filter_filter]
      rw [h1, mapDelete_of_not_mem hk']
    · show c2.size = c.size
      rw [hs2, hs1]
      omega
  · exact ⟨sampleCache, 5, 50, _, _, sampleCache_reachable, by decide, by decide, rfl, rfl,
      by decide, by decide⟩

/-- Witness for C20: key `2` put into and removed from the sample cache with room. -/
theorem Put_Remove_roundtrip_witness :
    Reachable sampleRoom ∧ Len sampleRoom < Cap sampleRoom ∧ 2 ∉ indexKeys sampleRoom ∧
      (∃ c1 c2, Put sampleRoom 2 20 = some (c1, none) ∧ Remove c1 2 = some (c2, true) ∧
        entries c2 = entries sampleRoom ∧ order c2 = order sampleRoom ∧
        c2.cache = sampleRoom.cache ∧ Len c2 = Len sampleRoom ∧ Cap c2 = Cap sampleRoom) ∧
      ∃ (d : Cache Nat Nat) (x y : Nat) (d1 d2 : Cache Nat Nat),
        Reachable d ∧ Len d = Cap d ∧ x ∉ indexKeys d ∧
        Put d x y = some (d1, none) ∧ Remove d1 x = some (d2, true) ∧
        entries d2 ≠ entries d ∧ Len d2 ≠ Len d :=
  ⟨sampleRoom_reachable, by decide, by decide,
    Put_Remove_roundtrip sampleRoom sampleRoom_reachable 2 20 (by decide) (by decide)⟩

end Claims

end lru
